import Mathlib

/-!
Verification of the MARBLE-ENGINE-TOOL-KIT codecs.

This file gives a shallow embedding of the PRS image codec
(`PRS_IMAGE_CONVERTER.py`), the MgData archive reader (`ExMgData.py`),
the XOR stream cipher (`ExMgData.py` / `PkMgData.py`) and the MgGra
packer (`PkmgGra.py`), and proves/refutes the specified properties.

Bytes are modelled as `Nat` (values `< 256` where relevant), byte
strings as `List Nat`.  Python exceptions are modelled with `Except` /
`Option`.  Loops are modelled as fuel-indexed structural recursions;
every top-level entry point supplies fuel that provably suffices, and
the lemmas carry explicit fuel bounds.
-/

set_option autoImplicit false

namespace Marble

/-! ## PRS decoder (`PrsReader` in `PRS_IMAGE_CONVERTER.py`) -/

/-- Errors of the PRS decode loop.  `invalidOffset` models the
`ValueError("Invalid offset value")` raise; `truncated` models the
`IndexError` of `f.read(1)[0]` on an exhausted stream; `outOfFuel` is
the (unreachable, see `prsUnpackLoop_total`) fuel bottom of the
embedding. -/
inductive PrsError where
  | invalidOffset
  | truncated
  | outOfFuel
  deriving DecidableEq

instance {ε α : Type} [DecidableEq ε] [DecidableEq α] : DecidableEq (Except ε α) :=
  fun x y =>
    match x, y with
    | .error a, .error b => decidable_of_iff (a = b) (by simp)
    | .ok a, .ok b => decidable_of_iff (a = b) (by simp)
    | .error _, .ok _ => .isFalse (fun h => Except.noConfusion h)
    | .ok _, .error _ => .isFalse (fun h => Except.noConfusion h)

/-- `PrsReader.length_table`: `[i + 3 for i in range(0xfe)] + [0x400, 0x1000]`. -/
def length_table : List Nat :=
  (List.range 0xfe).map (fun i => i + 3) ++ [0x400, 0x1000]

/-- The byte-by-byte overlapping back-reference copy
`for i in range(length): output[dst + i] = output[dst - shift + i]`,
expressed with a moving cursor: `copyBack out cur shift n` performs
`n` steps writing `out[cur] := out[cur - shift]`. -/
def copyBack (out : List Nat) (cur shift : Nat) : Nat → List Nat
  | 0 => out
  | n + 1 => copyBack (out.set cur (out.getD (cur - shift) 0)) (cur + 1) shift n

/-- Steps 1 of the decode loop: `bit >>= 1`; when the mask hits zero,
fetch the next control byte (`ctl = f.read(1)[0]; remaining -= 1;
bit = 0x80`).  Returns the updated `(payload, remaining, bit, ctl)`. -/
def fetchBit (payload : List Nat) (remaining bit ctl : Nat) :
    Except PrsError (List Nat × Nat × Nat × Nat) :=
  if bit >>> 1 = 0 then
    match payload with
    | [] => .error .truncated
    | c :: tail => .ok (tail, remaining - 1, 0x80, c)
  else
    .ok (payload, remaining, bit >>> 1, ctl)

/-- The main loop of `PrsReader.unpack` (lines 165-221 of
`PRS_IMAGE_CONVERTER.py`), one recursive call per loop iteration.
`payload` is the unread part of the file after offset 0x10; `remaining`
is the payload-byte budget; `output` is the (mutable in the source)
output bytearray; `dst` the write cursor; `bit`/`ctl` the control-bit
state.  The raw-run branch reproduces Python's resizing slice
assignment `output[dst:dst+length] = read_data` literally as
`take dst ++ read_data ++ drop (dst + length)`. -/
def prsUnpackLoop (payload : List Nat) (remaining : Nat) (output : List Nat)
    (dst bit ctl : Nat) : Nat → Except PrsError (List Nat)
  | 0 => .error .outOfFuel
  | fuel + 1 =>
    if remaining = 0 ∨ output.length ≤ dst then .ok output
    else
      match fetchBit payload remaining bit ctl with
      | .error e => .error e
      | .ok (p1, r1, bit1, ctl1) =>
        if r1 = 0 then .ok output
        else if ctl1 &&& bit1 = 0 then
          -- literal branch: `output[dst] = f.read(1)[0]`
          match p1 with
          | [] => .error .truncated
          | b :: p2 =>
            prsUnpackLoop p2 (r1 - 1) (output.set dst b) (dst + 1) bit1 ctl1 fuel
        else
          match p1 with
          | [] => .error .truncated
          | b :: p2 =>
            let r2 := r1 - 1
            if b &&& 0x80 ≠ 0 then
              if r2 = 0 then .ok output
              else
                match p2 with
                | [] => .error .truncated
                | s :: p3 =>
                  let r3 := r2 - 1
                  let shift1 := s ||| ((b &&& 0x3f) <<< 8)
                  if b &&& 0x40 ≠ 0 then
                    -- long match: `length = self.length_table[offset]`
                    if r3 = 0 then .ok output
                    else
                      match p3 with
                      | [] => .error .truncated
                      | o :: p4 =>
                        let shift2 := shift1 + 1
                        if dst < shift2 then .error .invalidOffset
                        else
                          let len := min (length_table.getD o 0) (output.length - dst)
                          prsUnpackLoop p4 (r3 - 1) (copyBack output dst shift2 len)
                            (dst + len) bit1 ctl1 fuel
                  else
                    -- mid match: `length = (shift & 0xf) + 3; shift >>= 4`
                    let shift2 := (shift1 >>> 4) + 1
                    if dst < shift2 then .error .invalidOffset
                    else
                      let len := min ((shift1 &&& 0xf) + 3) (output.length - dst)
                      prsUnpackLoop p3 r3 (copyBack output dst shift2 len)
                        (dst + len) bit1 ctl1 fuel
            else
              if b &&& 3 = 3 then
                -- raw run: `length = (b >> 2) + 9; output[dst:dst+length] = f.read(length)`
                let len := (b >>> 2) + 9
                let rd := p2.take len
                prsUnpackLoop (p2.drop len) (r2 - rd.length)
                  (output.take dst ++ rd ++ output.drop (dst + len)) (dst + rd.length)
                  bit1 ctl1 fuel
              else
                -- short match: `shift = b >> 2; length = (b & 3) + 2`
                let shift2 := (b >>> 2) + 1
                if dst < shift2 then .error .invalidOffset
                else
                  let len := min ((b &&& 3) + 2) (output.length - dst)
                  prsUnpackLoop p2 r2 (copyBack output dst shift2 len)
                    (dst + len) bit1 ctl1 fuel

/-- The per-channel delta post-filter of `PrsReader.unpack`
(`self.output[i] = (self.output[i] + self.output[i - self.depth]) % 256`
for `i` from `depth` to the end), as a cursor recursion over the number
of remaining indices. -/
def deltaDecodeAux (depth : Nat) (buf : List Nat) (i : Nat) : Nat → List Nat
  | 0 => buf
  | n + 1 =>
    deltaDecodeAux depth (buf.set i ((buf.getD i 0 + buf.getD (i - depth) 0) % 256)) (i + 1) n

/-- `if self.flag & 0x80: ...` un-delta filter over the whole buffer. -/
def deltaDecode (buf : List Nat) (depth : Nat) : List Nat :=
  deltaDecodeAux depth buf depth (buf.length - depth)

/-- `PrsMetaData` as parsed by `read_prs_meta_data` (note `bpp` is held
in bits there: `bpp * 8`). -/
structure PrsMetaData where
  width : Nat
  height : Nat
  bpp : Nat
  flag : Nat
  packed_size : Nat
  deriving DecidableEq

/-- Little-endian 16-bit read (`struct.unpack_from('<H', ...)`). -/
def readLE16 (l : List Nat) (off : Nat) : Nat :=
  l.getD off 0 + 256 * l.getD (off + 1) 0

/-- Little-endian 32-bit read (`struct.unpack_from('<I', ...)`). -/
def readLE32 (l : List Nat) (off : Nat) : Nat :=
  l.getD off 0 + 256 * l.getD (off + 1) 0 + 65536 * l.getD (off + 2) 0 +
    16777216 * l.getD (off + 3) 0

/-- `read_prs_meta_data`: parse the 16-byte header; `none` models the
`ValueError` raises (bad magic / unsupported bpp) and a short header. -/
def read_prs_meta_data (file : List Nat) : Option PrsMetaData :=
  if file.length < 16 then none
  else
    let header := file.take 16
    if header.take 2 ≠ [0x59, 0x42] then none
    else
      let bpp := header.getD 3 0
      if bpp ≠ 3 ∧ bpp ≠ 4 then none
      else
        some ⟨readLE16 header 12, readLE16 header 14, bpp * 8, header.getD 2 0,
          readLE32 header 4⟩

/-- `PrsReader.unpack`: seek past the 16-byte header, run the decode
loop on a zero-initialised buffer of `width * height * depth` bytes,
then apply the inverse delta filter when flag bit 7 is set.  (The
dummy-alpha detection only changes the saved pixel format, not the
decoded buffer, and is not modelled.) -/
def prsUnpack (file : List Nat) (meta : PrsMetaData) : Except PrsError (List Nat) :=
  let depth := meta.bpp / 8
  let payload := file.drop 16
  match prsUnpackLoop payload meta.packed_size
      (List.replicate (meta.width * meta.height * depth) 0) 0 0 0
      (meta.packed_size + 1) with
  | .error e => .error e
  | .ok out => .ok (if meta.flag &&& 0x80 ≠ 0 then deltaDecode out depth else out)

/-- `convert_prs_to_bmp` up to the decoded pixel buffer: parse the
header, then unpack. `none` models the metadata-level `ValueError`s. -/
def prsDecodeFile (file : List Nat) : Option (Except PrsError (List Nat)) :=
  (read_prs_meta_data file).map (prsUnpack file)

example : prsUnpackLoop [0x00, 0x41, 0x42] 3 (List.replicate 2 0) 0 0 0 4 =
    .ok [0x41, 0x42] := by decide

example : prsUnpackLoop [0x01, 0x05] 2 (List.replicate 1 0) 0 0 0 3 =
    .ok [0x05] := by decide

/-! ## PRS encoder (`PrsWriter` in `PRS_IMAGE_CONVERTER.py`) -/

/-- The encoder's hash table `self.hash_table`: a Python dict from hash
values to (append-only) position lists, modelled as an association
list with unique keys. -/
def HashTable : Type := List (Nat × List Nat)

/-- Dict lookup (`h in self.hash_table` / `self.hash_table[h]`). -/
def tableGet : HashTable → Nat → Option (List Nat)
  | [], _ => none
  | (k, v) :: rest, h => if k = h then some v else tableGet rest h

/-- `self.hash_table[h].append(i)`, creating the entry when absent. -/
def tableAdd : HashTable → Nat → Nat → HashTable
  | [], h, i => [(h, [i])]
  | (k, v) :: rest, h, i =>
    if k = h then (k, v ++ [i]) :: rest else (k, v) :: tableAdd rest h i

/-- `PrsWriter.hash`: `input[i] | (input[i+1] << 8) | (input[i+2] << 16)`,
or `0` when fewer than three bytes remain. -/
def prsHash (input : List Nat) (i : Nat) : Nat :=
  if input.length < i + 3 then 0
  else input.getD i 0 ||| (input.getD (i + 1) 0 <<< 8) ||| (input.getD (i + 2) 0 <<< 16)

/-- The hash-table update `for i in range(input_index - match_length,
input_index): ...append(i)`, as a count-bounded recursion starting at
the range's lower end. -/
def addRange (table : HashTable) (input : List Nat) (start : Nat) : Nat → HashTable
  | 0 => table
  | n + 1 => addRange (tableAdd table (prsHash input start) start) input (start + 1) n

/-- The inner scan `while length < max_length and
input[input_index + length] == input[offset + length]`: the length of
the common prefix of `input` at positions `a` and `b`, capped by the
fuel (= `max_length`). -/
def matchLenFrom (input : List Nat) (a b : Nat) : Nat → Nat
  | 0 => 0
  | m + 1 =>
    if input.getD a 0 = input.getD b 0 then matchLenFrom input (a + 1) (b + 1) m + 1
    else 0

/-- The candidate loop of `find_longest_match`: walk the hash chain,
skip candidates farther than `maxOff`, track the strictly best
`(length, offset)`, break once `max_length` is reached. -/
def scanChain (input : List Nat) (idx maxOff maxLen : Nat) :
    List Nat → Nat × Nat → Nat × Nat
  | [], best => best
  | q :: rest, best =>
    if maxOff < idx - q then scanChain input idx maxOff maxLen rest best
    else
      let len := matchLenFrom input idx q maxLen
      if best.1 < len then
        if len = maxLen then (len, idx - q)
        else scanChain input idx maxOff maxLen rest (len, idx - q)
      else scanChain input idx maxOff maxLen rest best

/-- `PrsWriter.find_longest_match`. -/
def find_longest_match (input : List Nat) (table : HashTable) (idx : Nat) : Nat × Nat :=
  match tableGet table (prsHash input idx) with
  | none => (0, 0)
  | some chain =>
    let maxOff := min idx 0x2000
    let maxLen := min (input.length - idx) 0x100
    let best := scanChain input idx maxOff maxLen chain (0, 0)
    if best.1 < 3 then (0, 0) else best

/-- The payload bytes the encoder appends for a chosen match
`(match_length, match_offset)` (lines 66-80 of the source): one byte
for the short form, two for the mid form, three for the long form. -/
def emitMatch (len off : Nat) : List Nat :=
  if len ≤ 5 ∧ off ≤ 256 then
    [((off - 1) ||| ((len - 2) <<< 6)) &&& 0xFF]
  else if len ≤ 9 then
    [0x80 ||| ((off - 1) >>> 5), ((off - 1) &&& 0x1F) ||| ((len - 2) <<< 5)]
  else
    [0xC0 ||| ((off - 1) >>> 8), (off - 1) &&& 0xFF, len - 1]

/-- The main loop of `PrsWriter.pack` (lines 55-102), returning the
payload bytes written after the 16-byte header.  State: input cursor
`idx`, pending control byte `control`, its mask, the buffered payload
bytes `cbuf` of the current group, and the hash table.  A group is
flushed when the mask reaches `0x100`; a final partial group is
flushed after the loop when `mask != 1 or control_buffer`. -/
def packLoop (input : List Nat) (idx control mask : Nat) (cbuf : List Nat)
    (table : HashTable) : Nat → List Nat
  | 0 => []
  | fuel + 1 =>
    if input.length ≤ idx then
      if mask ≠ 1 ∨ cbuf ≠ [] then control :: cbuf else []
    else
      let fm := find_longest_match input table idx
      let control' := if fm.1 < 3 then control else control ||| mask
      let cbuf' := if fm.1 < 3 then cbuf ++ [input.getD idx 0] else cbuf ++ emitMatch fm.1 fm.2
      let idx' := if fm.1 < 3 then idx + 1 else idx + fm.1
      let table' := addRange table input (idx' - fm.1) fm.1
      if mask <<< 1 = 0x100 then
        control' :: cbuf' ++ packLoop input idx' 0 1 [] table' fuel
      else
        packLoop input idx' control' (mask <<< 1) cbuf' table' fuel

/-- The payload produced by `PrsWriter.pack` for a given (already
delta-filtered, if applicable) input buffer. -/
def prsPackPayload (input : List Nat) : List Nat :=
  packLoop input 0 0 1 [] [] (input.length + 1)

/-- The `PrsWriter.__init__` delta pre-filter
`for i in range(len(input)-1, depth-1, -1):
   input[i] = (input[i] - input[i-depth] + 256) % 256`,
as a downward cursor recursion (`n` indices left, cursor `i`). -/
def deltaEncodeAux (depth : Nat) (buf : List Nat) (i : Nat) : Nat → List Nat
  | 0 => buf
  | n + 1 =>
    deltaEncodeAux depth (buf.set i ((buf.getD i 0 + 256 - buf.getD (i - depth) 0) % 256))
      (i - 1) n

/-- Delta pre-filter over the whole buffer (applied iff flag bit 7). -/
def deltaEncode (buf : List Nat) (depth : Nat) : List Nat :=
  deltaEncodeAux depth buf (buf.length - 1) (buf.length - depth)

/-- `PrsWriter` + `pack` end to end: the full output file for a pixel
buffer `input` (in BGR(A) byte order, as built by `__init__`), with
`flag`, byte depth `depth` and dimensions `w`, `h`.  The header is
`"YB"`, flag, depth, the little-endian 32-bit packed size (patched in
at offset 4 after the payload is written), four reserved zero bytes,
and the little-endian 16-bit width and height. -/
def prsPack (input : List Nat) (flag depth w h : Nat) : List Nat :=
  let filtered := if flag &&& 0x80 ≠ 0 then deltaEncode input depth else input
  let payload := prsPackPayload filtered
  let ps := payload.length
  0x59 :: 0x42 :: flag :: depth ::
    (ps % 256) :: (ps / 256 % 256) :: (ps / 65536 % 256) :: (ps / 16777216 % 256) ::
    0 :: 0 :: 0 :: 0 ::
    (w % 256) :: (w / 256 % 256) :: (h % 256) :: (h / 256 % 256) :: payload

example : prsPackPayload [7, 8, 9] = [0, 7, 8, 9] := by decide

example : prsDecodeFile (prsPack [7, 8, 9] 0 3 1 1) = some (.ok [7, 8, 9]) := by decide

example :
    prsPackPayload [1, 2, 3, 4, 5, 6, 7, 8, 9] =
      [0, 1, 2, 3, 4, 5, 6, 7, 8, 0, 9] := by decide

example :
    prsDecodeFile (prsPack [1, 1, 1, 1, 1, 1, 1, 1, 1, 1, 1, 1] 0 3 2 2) =
      some (.ok [1, 1, 1, 1, 1, 1, 1, 1, 1, 1, 1, 1]) := by decide

/-! ## The encoder emits only literals

`find_longest_match` consults the hash table before it is updated, and
the update after a literal token covers the empty range
`range(input_index - 0, input_index)`; so the hash table stays empty
forever and every token is a literal. -/

lemma find_longest_match_nil (input : List Nat) (idx : Nat) :
    find_longest_match input [] idx = (0, 0) := rfl

lemma addRange_zero (t : HashTable) (input : List Nat) (s : Nat) :
    addRange t input s 0 = t := rfl

/-- Shape of the all-literal payload: each block of (up to) eight input
bytes is preceded by a zero control byte. -/
def litChunks (s : List Nat) : List Nat :=
  if h : s = [] then [] else 0 :: (s.take 8 ++ litChunks (s.drop 8))
termination_by s.length
decreasing_by
  have : 0 < s.length := List.length_pos.mpr h
  simp only [List.length_drop]
  omega

/-- Mid-group continuation of the all-literal payload: `k` tokens have
been consumed in the current group and `cbuf` buffered. -/
def litTail (s : List Nat) (k : Nat) (cbuf : List Nat) : List Nat :=
  if s = [] then (if k = 0 ∧ cbuf = [] then [] else 0 :: cbuf)
  else if s.length + k < 8 then 0 :: (cbuf ++ s)
  else (0 :: (cbuf ++ s.take (8 - k))) ++ litChunks (s.drop (8 - k))

lemma litChunks_nil : litChunks [] = [] := by
  rw [litChunks]
  simp

lemma litChunks_cons (s : List Nat) (h : s ≠ []) :
    litChunks s = 0 :: (s.take 8 ++ litChunks (s.drop 8)) := by
  rw [litChunks]
  simp [h]

lemma litTail_zero (s : List Nat) : litTail s 0 [] = litChunks s := by
  by_cases h : s = []
  · subst h
    simp [litTail, litChunks_nil]
  · rw [litTail, litChunks_cons s h]
    by_cases hlen : s.length < 8
    · have ht : s.take 8 = s := List.take_of_length_le (by omega)
      have hd : s.drop 8 = [] := List.drop_eq_nil_of_le (by omega)
      simp [h, hlen, ht, hd, litChunks_nil]
    · simp [h, hlen]

lemma litTail_cons (b : Nat) (t : List Nat) (k : Nat) (cbuf : List Nat) (hk : k < 7) :
    litTail (b :: t) k cbuf = litTail t (k + 1) (cbuf ++ [b]) := by
  by_cases ht : t = []
  · subst ht
    have hL : litTail [b] k cbuf = 0 :: (cbuf ++ [b]) := by
      rw [litTail, if_neg (List.cons_ne_nil b []), if_pos (by simp; omega)]
    have hR : litTail [] (k + 1) (cbuf ++ [b]) = 0 :: (cbuf ++ [b]) := by
      rw [litTail, if_pos rfl, if_neg (by simp)]
    rw [hL, hR]
  · rw [litTail, litTail, if_neg (List.cons_ne_nil b t), if_neg ht]
    by_cases hsmall : t.length + (k + 1) < 8
    · rw [if_pos (by simp; omega), if_pos hsmall]
      simp
    · rw [if_neg (by simp; omega), if_neg hsmall]
      have h8 : 8 - k = (7 - k) + 1 := by omega
      have h7 : 8 - (k + 1) = 7 - k := by omega
      rw [h8, h7, List.take_succ_cons, List.drop_succ_cons]
      simp

lemma one_shiftLeft_lt8 :
    ∀ k, k < 8 → ((1 <<< k = 1 ↔ k = 0) ∧ ((1 <<< k) <<< 1 = 0x100 ↔ k = 7) ∧
      (1 <<< k) <<< 1 = 1 <<< (k + 1)) := by decide

/-- One literal step of `packLoop` over the (invariantly) empty hash
table. -/
lemma packLoop_empty_step (input : List Nat) (idx control mask : Nat) (cbuf : List Nat)
    (f : Nat) (hidx : idx < input.length) :
    packLoop input idx control mask cbuf [] (f + 1) =
      if mask <<< 1 = 0x100 then
        control :: (cbuf ++ [input.getD idx 0]) ++ packLoop input (idx + 1) 0 1 [] [] f
      else
        packLoop input (idx + 1) control (mask <<< 1) (cbuf ++ [input.getD idx 0]) [] f := by
  rw [packLoop, if_neg (by omega), find_longest_match_nil]
  have h03 : ((0, 0) : Nat × Nat).1 < 3 := by decide
  simp only [if_pos h03, Nat.add_sub_cancel, addRange_zero]

/-- With an empty hash table, `PrsWriter.pack`'s loop emits the
all-literal payload. -/
lemma packLoop_lit (input : List Nat) :
    ∀ fuel idx k cbuf, k < 8 → input.length - idx < fuel →
      packLoop input idx 0 (1 <<< k) cbuf [] fuel = litTail (input.drop idx) k cbuf := by
  intro fuel
  induction fuel with
  | zero => intro idx k cbuf _ hf; omega
  | succ f ih =>
    intro idx k cbuf hk hf
    obtain ⟨hone, hflush, hsucc⟩ := one_shiftLeft_lt8 k hk
    by_cases hidx : input.length ≤ idx
    · have hdrop : input.drop idx = [] := List.drop_eq_nil_of_le hidx
      rw [packLoop, if_pos hidx, hdrop, litTail]
      by_cases hk0 : k = 0
      · by_cases hc : cbuf = [] <;> simp [hk0, hc, hone]
      · simp [hk0, hone]
    · push_neg at hidx
      have hdrop := List.drop_eq_getElem_cons hidx
      have hget : input.getD idx 0 = input[idx] := List.getD_eq_getElem _ _ hidx
      rw [packLoop_empty_step input idx 0 (1 <<< k) cbuf f hidx]
      by_cases hk7 : k = 7
      · subst hk7
        rw [if_pos (hflush.mpr rfl)]
        have ihz := ih (idx + 1) 0 [] (by omega) (by omega)
        rw [show (1 : Nat) <<< 0 = 1 from rfl] at ihz
        rw [ihz, litTail_zero]
        have hne : input.drop idx ≠ [] := by
          rw [hdrop]; exact List.cons_ne_nil _ _
        rw [litTail, if_neg hne, if_neg (by simp; omega), hget]
        rw [show (8 - 7 : Nat) = 1 from rfl, hdrop]
        rw [show ∀ (x : Nat) (l : List Nat), List.take 1 (x :: l) = [x] from fun _ _ => rfl]
        rw [show ∀ (x : Nat) (l : List Nat), List.drop 1 (x :: l) = l from fun _ _ => rfl]
      · rw [if_neg (fun hin => hk7 (hflush.mp hin)), hsucc]
        rw [ih (idx + 1) (k + 1) _ (by omega) (by omega)]
        rw [hdrop, litTail_cons _ _ _ _ (by omega), hget]

/-- `PrsWriter.pack` writes the all-literal payload. -/
lemma prsPackPayload_eq_litChunks (input : List Nat) :
    prsPackPayload input = litChunks input := by
  have h := packLoop_lit input (input.length + 1) 0 0 [] (by omega) (by omega)
  rw [show (1 : Nat) <<< 0 = 1 from rfl] at h
  simp only [List.drop_zero, litTail_zero] at h
  exact h

/-! ## Decoding an all-literal payload -/

lemma one_shiftLeft_ne_zero (n : Nat) : 1 <<< n ≠ 0 := by
  rw [Nat.one_shiftLeft]
  exact (Nat.two_pow_pos n).ne'

lemma one_shiftLeft_succ_shiftRight (n : Nat) : (1 <<< (n + 1)) >>> 1 = 1 <<< n := by
  rw [Nat.one_shiftLeft, Nat.one_shiftLeft, Nat.shiftRight_eq_div_pow, Nat.pow_succ,
    Nat.pow_one, Nat.mul_div_cancel _ (by omega)]

lemma shiftRight_one_of_le_one {bit : Nat} (h : bit ≤ 1) : bit >>> 1 = 0 := by
  rw [Nat.shiftRight_eq_div_pow, Nat.pow_one]
  omega

lemma fetchBit_stay (payload : List Nat) (remaining bit ctl : Nat) (hbit : bit >>> 1 ≠ 0) :
    fetchBit payload remaining bit ctl = .ok (payload, remaining, bit >>> 1, ctl) := by
  simp [fetchBit, hbit]

lemma fetchBit_load (c : Nat) (payload : List Nat) (remaining bit ctl : Nat)
    (hbit : bit >>> 1 = 0) :
    fetchBit (c :: payload) remaining bit ctl = .ok (payload, remaining - 1, 0x80, c) := by
  simp [fetchBit, hbit]

/-- Unfolding of the decode loop at an exhausted budget. -/
lemma prsUnpack_done (payload : List Nat) (remaining : Nat) (out : List Nat)
    (dst bit ctl fuel : Nat) (h : remaining = 0 ∨ out.length ≤ dst) :
    prsUnpackLoop payload remaining out dst bit ctl (fuel + 1) = .ok out := by
  rw [prsUnpackLoop, if_pos h]

/-- Unfolding of the decode loop at a mid-group literal token. -/
lemma prsUnpack_literal_step (b : Nat) (payload : List Nat) (remaining : Nat) (out : List Nat)
    (dst bit ctl fuel : Nat) (hrem : remaining ≠ 0) (hdst : dst < out.length)
    (hbit : bit >>> 1 ≠ 0) (hctl : ctl &&& (bit >>> 1) = 0) :
    prsUnpackLoop (b :: payload) remaining out dst bit ctl (fuel + 1) =
      prsUnpackLoop payload (remaining - 1) (out.set dst b) (dst + 1) (bit >>> 1) ctl fuel := by
  have hor : ¬(remaining = 0 ∨ out.length ≤ dst) := by push_neg; exact ⟨hrem, by omega⟩
  rw [prsUnpackLoop, if_neg hor, fetchBit_stay _ _ _ _ hbit]
  simp [hrem, hctl]

/-- Unfolding of the decode loop at a group boundary: the control byte
is fetched and the first token of the group is processed in the same
iteration; here for a zero control byte, whose first token is a
literal. -/
lemma prsUnpack_ctl0_literal_step (b : Nat) (payload : List Nat) (remaining : Nat)
    (out : List Nat) (dst bit ctl fuel : Nat) (hrem : remaining ≠ 0)
    (hrem1 : remaining - 1 ≠ 0) (hdst : dst < out.length) (hbit : bit ≤ 1) :
    prsUnpackLoop (0 :: b :: payload) remaining out dst bit ctl (fuel + 1) =
      prsUnpackLoop payload (remaining - 2) (out.set dst b) (dst + 1) 0x80 0 fuel := by
  have hor : ¬(remaining = 0 ∨ out.length ≤ dst) := by push_neg; exact ⟨hrem, by omega⟩
  rw [prsUnpackLoop, if_neg hor,
    fetchBit_load _ _ _ _ _ (shiftRight_one_of_le_one hbit)]
  simp [hrem1, show remaining - 1 - 1 = remaining - 2 by omega]

lemma take_set_succ : ∀ (l : List Nat) (i a : Nat), i < l.length →
    (l.set i a).take (i + 1) = l.take i ++ [a]
  | [], i, a, h => by simp at h
  | x :: xs, 0, a, _ => by simp
  | x :: xs, i + 1, a, h => by
    have ih := take_set_succ xs i a (by simpa using h)
    simp [List.set_cons_succ, List.take_succ_cons, ih]

lemma drop_set_lt : ∀ (l : List Nat) (i a j : Nat), i < j → (l.set i a).drop j = l.drop j
  | [], _, _, _, _ => by simp
  | x :: xs, 0, a, j + 1, _ => by simp
  | x :: xs, i + 1, a, j + 1, h => by
    have ih := drop_set_lt xs i a j (by omega)
    simp [List.set_cons_succ, List.drop_succ_cons, ih]

/-- Running the decode loop mid-group over `g.length` literal tokens
with a zero control byte: the bytes of `g` are written at `dst` and the
loop continues on `rest` with mask `1`. -/
lemma decLitRunFull : ∀ (g rest out : List Nat) (dst fuel : Nat),
    g.length ≤ 7 → dst + g.length ≤ out.length → g.length ≤ fuel →
    prsUnpackLoop (g ++ rest) (g.length + rest.length) out dst (1 <<< g.length) 0 fuel =
      prsUnpackLoop rest rest.length (out.take dst ++ g ++ out.drop (dst + g.length))
        (dst + g.length) 1 0 (fuel - g.length)
  | [], rest, out, dst, fuel, _, _, _ => by
    simp [List.take_append_drop]
  | b :: g', rest, out, dst, fuel, hg, hdst, hfuel => by
    have hlen : (b :: g').length = g'.length + 1 := by simp
    obtain ⟨f, rfl⟩ : ∃ f, fuel = f + 1 := ⟨fuel - 1, by simp at hfuel; omega⟩
    rw [hlen, List.cons_append,
      prsUnpack_literal_step b (g' ++ rest) _ out dst _ 0 f
        (by omega) (by simp at hdst; omega)
        (by rw [one_shiftLeft_succ_shiftRight]; exact one_shiftLeft_ne_zero g'.length)
        (Nat.zero_and _),
      one_shiftLeft_succ_shiftRight]
    have harith : g'.length + 1 + rest.length - 1 = g'.length + rest.length := by omega
    rw [harith]
    have ih := decLitRunFull g' rest (out.set dst b) (dst + 1) f
      (by simp at hg; omega) (by simp at hdst; simp; omega) (by simp at hfuel; omega)
    rw [ih, take_set_succ out dst b (by simp at hdst; omega),
      drop_set_lt out dst b (dst + 1 + g'.length) (by omega)]
    have h1 : dst + 1 + g'.length = dst + (g'.length + 1) := by omega
    have h2 : f - g'.length = f + 1 - (g'.length + 1) := by omega
    rw [h1, h2]
    simp

/-- Running the decode loop over a final short group of literal tokens:
the budget runs out exactly when the group ends. -/
lemma decLitRunLast : ∀ (g out : List Nat) (m dst fuel : Nat),
    g.length < m → m ≤ 7 → dst + g.length ≤ out.length → g.length < fuel →
    prsUnpackLoop g g.length out dst (1 <<< m) 0 fuel =
      .ok (out.take dst ++ g ++ out.drop (dst + g.length))
  | [], out, m, dst, fuel, _, _, _, hfuel => by
    obtain ⟨f, rfl⟩ : ∃ f, fuel = f + 1 := ⟨fuel - 1, by omega⟩
    simp only [List.length_nil]
    rw [prsUnpack_done _ _ _ _ _ _ _ (Or.inl rfl)]
    simp [List.take_append_drop]
  | b :: g', out, m, dst, fuel, hm, hm7, hdst, hfuel => by
    obtain ⟨f, rfl⟩ : ∃ f, fuel = f + 1 := ⟨fuel - 1, by omega⟩
    obtain ⟨m', rfl⟩ : ∃ m', m = m' + 1 := ⟨m - 1, by omega⟩
    rw [prsUnpack_literal_step b g' _ out dst _ 0 f
        (by simp) (by simp at hdst; omega)
        (by rw [one_shiftLeft_succ_shiftRight]; exact one_shiftLeft_ne_zero m')
        (Nat.zero_and _),
      one_shiftLeft_succ_shiftRight]
    have hlen : (b :: g').length - 1 = g'.length := by simp
    rw [hlen]
    have ih := decLitRunLast g' (out.set dst b) m' (dst + 1) f
      (by simp at hm; omega) (by omega) (by simp at hdst; simp; omega)
      (by simp at hfuel; omega)
    rw [ih, take_set_succ out dst b (by simp at hdst; omega),
      drop_set_lt out dst b (dst + 1 + g'.length) (by omega)]
    have h1 : dst + 1 + g'.length = dst + (b :: g').length := by simp; omega
    rw [h1]
    simp

/-- Decoding the all-literal payload reproduces the encoded bytes. -/
lemma decodeLitChunks : ∀ (n : Nat) (s out : List Nat) (dst bit fuel : Nat),
    s.length ≤ n → bit ≤ 1 → dst + s.length = out.length →
    (litChunks s).length < fuel →
    prsUnpackLoop (litChunks s) (litChunks s).length out dst bit 0 fuel =
      .ok (out.take dst ++ s) := by
  intro n
  induction n with
  | zero =>
    intro s out dst bit fuel hs hbit hdst hfuel
    have hnil : s = [] := List.eq_nil_of_length_eq_zero (by omega)
    subst hnil
    obtain ⟨f, rfl⟩ : ∃ f, fuel = f + 1 := ⟨fuel - 1, by omega⟩
    rw [litChunks_nil]
    simp only [List.length_nil]
    rw [prsUnpack_done _ _ _ _ _ _ _ (Or.inl rfl)]
    have hd : dst = out.length := by simpa using hdst
    rw [hd]
    simp
  | succ n' ih =>
    intro s out dst bit fuel hs hbit hdst hfuel
    by_cases hsnil : s = []
    · subst hsnil
      obtain ⟨f, rfl⟩ : ∃ f, fuel = f + 1 := ⟨fuel - 1, by omega⟩
      rw [litChunks_nil]
      simp only [List.length_nil]
      rw [prsUnpack_done _ _ _ _ _ _ _ (Or.inl rfl)]
      have hd : dst = out.length := by simpa using hdst
      rw [hd]
      simp
    · obtain ⟨b, stail, rfl⟩ : ∃ b t, s = b :: t := by
        cases s with
        | nil => exact absurd rfl hsnil
        | cons x xs => exact ⟨x, xs, rfl⟩
      have hcc := litChunks_cons (b :: stail) hsnil
      have htake8 : (b :: stail).take 8 = b :: stail.take 7 := rfl
      have hdrop8 : (b :: stail).drop 8 = stail.drop 7 := rfl
      rw [htake8, hdrop8, List.cons_append] at hcc
      set rest2 := stail.take 7 ++ litChunks (stail.drop 7) with hrest2
      have hlenc : (litChunks (b :: stail)).length = 2 + rest2.length := by
        rw [hcc]; simp; omega
      have hlr2 : rest2.length = min 7 stail.length + (litChunks (stail.drop 7)).length := by
        simp [hrest2, List.length_take]
      obtain ⟨f, rfl⟩ : ∃ f, fuel = f + 1 := ⟨fuel - 1, by omega⟩
      rw [hcc, prsUnpack_ctl0_literal_step b rest2 _ out dst bit 0 f
        (by simp) (by simp) (by simp at hdst; omega) hbit]
      rw [show (0 :: b :: rest2).length - 2 = rest2.length by simp]
      by_cases hlong : 7 ≤ stail.length
      · -- full group of eight literals, then recurse on the next chunks
        have hg7 : (stail.take 7).length = 7 := by simp [List.length_take]; omega
        have hrun := decLitRunFull (stail.take 7) (litChunks (stail.drop 7))
          (out.set dst b) (dst + 1) f (by omega)
          (by simp only [List.length_set, hg7]; simp at hdst; omega) (by omega)
        rw [hg7] at hrun
        rw [show (0x80 : Nat) = 1 <<< 7 from rfl, hrest2, List.length_append, hg7, hrun]
        have hih := ih (stail.drop 7) (List.take (dst + 1) (out.set dst b) ++
            stail.take 7 ++ List.drop (dst + 1 + 7) (out.set dst b))
          (dst + 1 + 7) 1 (f - 7)
          (by simp only [List.length_drop]; simp at hs; omega) (by omega)
          (by simp only [List.length_append, List.length_take, List.length_drop,
                List.length_set, hg7]; simp at hdst; omega)
          (by omega)
        rw [hih]
        rw [take_set_succ out dst b (by simp at hdst; omega),
          drop_set_lt out dst b (dst + 1 + 7) (by omega)]
        have hx : ((out.take dst ++ [b]) ++ stail.take 7).length = dst + 1 + 7 := by
          simp only [List.length_append, List.length_take, hg7]
          simp at hdst
          simp
          omega
        rw [List.take_left' hx]
        simp
      · -- final short group
        push_neg at hlong
        have hshort : rest2 = stail := by
          rw [hrest2, List.take_of_length_le (by omega),
            List.drop_eq_nil_of_le (by omega), litChunks_nil, List.append_nil]
        rw [hshort, show (0x80 : Nat) = 1 <<< 7 from rfl]
        have hrun := decLitRunLast stail (out.set dst b) 7 (dst + 1) f
          (by omega) (by omega)
          (by simp only [List.length_set]; simp at hdst; omega) (by omega)
        rw [hrun]
        rw [take_set_succ out dst b (by simp at hdst; omega),
          drop_set_lt out dst b (dst + 1 + stail.length) (by omega)]
        have hend : dst + 1 + stail.length = out.length := by simp at hdst; omega
        rw [hend, List.drop_length, List.append_nil]
        simp

/-! ## Claim C1: PRS round-trip without the delta filter -/

lemma prsPack_flag0 (input : List Nat) (depth w h : Nat) :
    prsPack input 0 depth w h =
      0x59 :: 0x42 :: 0 :: depth ::
        ((prsPackPayload input).length % 256) ::
        ((prsPackPayload input).length / 256 % 256) ::
        ((prsPackPayload input).length / 65536 % 256) ::
        ((prsPackPayload input).length / 16777216 % 256) ::
        0 :: 0 :: 0 :: 0 ::
        (w % 256) :: (w / 256 % 256) :: (h % 256) :: (h / 256 % 256) ::
        prsPackPayload input := by
  simp [prsPack]

lemma read_prs_meta_data_cons (flag depth p0 p1 p2 p3 w0 w1 h0 h1 : Nat)
    (payload : List Nat) (hdepth : depth = 3 ∨ depth = 4) :
    read_prs_meta_data (0x59 :: 0x42 :: flag :: depth :: p0 :: p1 :: p2 :: p3 ::
        0 :: 0 :: 0 :: 0 :: w0 :: w1 :: h0 :: h1 :: payload) =
      some ⟨w0 + 256 * w1, h0 + 256 * h1, depth * 8, flag,
        p0 + 256 * p1 + 65536 * p2 + 16777216 * p3⟩ := by
  rcases hdepth with rfl | rfl <;>
    (simp only [read_prs_meta_data]
     rw [if_neg (by simp)]
     rfl)

/-- Claim C1: PRS round-trip without the delta filter: decoding the
encoder's output reproduces the input pixel buffer exactly.  (Indeed
the encoder's hash table is never populated — literal tokens register
the empty range `range(input_index - 0, input_index)` — so the payload
is all literals and the decoder copies them back verbatim.)  The size
bounds are the ranges accepted by `struct.pack('<HH')`/`('<I')`. -/
theorem c1_prs_round_trip (w h depth : Nat) (input : List Nat)
    (hdepth : depth = 3 ∨ depth = 4) (hlen : input.length = w * h * depth)
    (hbytes : ∀ x ∈ input, x < 256) (hw : w < 65536) (hh : h < 65536)
    (hps : (prsPackPayload input).length < 4294967296) :
    prsDecodeFile (prsPack input 0 depth w h) = some (.ok input) := by
  have hpl : (prsPackPayload input).length = (litChunks input).length := by
    rw [prsPackPayload_eq_litChunks]
  rw [prsDecodeFile, prsPack_flag0,
    read_prs_meta_data_cons _ _ _ _ _ _ _ _ _ _ _ hdepth]
  have hwid : w % 256 + 256 * (w / 256 % 256) = w := by omega
  have hhei : h % 256 + 256 * (h / 256 % 256) = h := by omega
  have hps2 : (prsPackPayload input).length % 256 +
      256 * ((prsPackPayload input).length / 256 % 256) +
      65536 * ((prsPackPayload input).length / 65536 % 256) +
      16777216 * ((prsPackPayload input).length / 16777216 % 256) =
      (prsPackPayload input).length := by omega
  rw [hwid, hhei, hps2, Option.map_some']
  refine congrArg some ?_
  simp only [prsUnpack]
  have hdd : depth * 8 / 8 = depth := by omega
  have hdrop : (0x59 :: 0x42 :: 0 :: depth ::
      ((prsPackPayload input).length % 256) ::
      ((prsPackPayload input).length / 256 % 256) ::
      ((prsPackPayload input).length / 65536 % 256) ::
      ((prsPackPayload input).length / 16777216 % 256) ::
      0 :: 0 :: 0 :: 0 ::
      (w % 256) :: (w / 256 % 256) :: (h % 256) :: (h / 256 % 256) ::
      prsPackPayload input).drop 16 = prsPackPayload input := rfl
  rw [hdd, hdrop, prsPackPayload_eq_litChunks]
  have hloop := decodeLitChunks input.length input
    (List.replicate (w * h * depth) 0) 0 0 ((litChunks input).length + 1)
    (le_refl _) (by omega) (by simp [List.length_replicate]; omega) (by omega)
  rw [hloop]
  simp

theorem c1_prs_round_trip_witness :
    ((3 : Nat) = 3 ∨ (3 : Nat) = 4) ∧ ([10, 20, 30] : List Nat).length = 1 * 1 * 3 ∧
      (∀ x ∈ ([10, 20, 30] : List Nat), x < 256) ∧
      (prsPackPayload [10, 20, 30]).length < 4294967296 ∧
      prsDecodeFile (prsPack [10, 20, 30] 0 3 1 1) = some (.ok [10, 20, 30]) :=
  ⟨Or.inl rfl, rfl, by decide, by decide,
    c1_prs_round_trip 1 1 3 [10, 20, 30] (Or.inl rfl) rfl (by decide)
      (by decide) (by decide) (by decide)⟩

/-! ## Claim C7: header patching -/

/-- Claim C7: after `PrsWriter.pack`, the `packed_size` field stored
little-endian at header offset 4 equals the number of payload bytes
following the 16-byte header (the range bound is what
`struct.pack('<I', ...)` accepts). -/
theorem c7_header_patching (input : List Nat) (flag depth w h : Nat)
    (hps : (prsPack input flag depth w h).length - 16 < 4294967296) :
    readLE32 (prsPack input flag depth w h) 4 =
      (prsPack input flag depth w h).length - 16 := by
  simp only [prsPack] at hps ⊢
  set P := prsPackPayload (if flag &&& 0x80 ≠ 0 then deltaEncode input depth else input)
    with hP
  have h1 : readLE32 (0x59 :: 0x42 :: flag :: depth ::
      (P.length % 256) :: (P.length / 256 % 256) ::
      (P.length / 65536 % 256) :: (P.length / 16777216 % 256) ::
      0 :: 0 :: 0 :: 0 ::
      (w % 256) :: (w / 256 % 256) :: (h % 256) :: (h / 256 % 256) :: P) 4 =
      P.length % 256 + 256 * (P.length / 256 % 256) +
        65536 * (P.length / 65536 % 256) +
        16777216 * (P.length / 16777216 % 256) := rfl
  have h2 : (0x59 :: 0x42 :: flag :: depth ::
      (P.length % 256) :: (P.length / 256 % 256) ::
      (P.length / 65536 % 256) :: (P.length / 16777216 % 256) ::
      0 :: 0 :: 0 :: 0 ::
      (w % 256) :: (w / 256 % 256) :: (h % 256) :: (h / 256 % 256) :: P).length - 16 =
      P.length := by simp
  rw [h2] at hps
  rw [h1, h2]
  omega

theorem c7_header_patching_witness :
    (prsPack [9, 9, 9, 9] 0x80 4 1 1).length - 16 < 4294967296 ∧
      readLE32 (prsPack [9, 9, 9, 9] 0x80 4 1 1) 4 =
        (prsPack [9, 9, 9, 9] 0x80 4 1 1).length - 16 :=
  ⟨by decide, c7_header_patching [9, 9, 9, 9] 0x80 4 1 1 (by decide)⟩

/-! ## Claim C4: mid-match token encoding -/

/-- Modelled from the claim's words (C4): with `eo = off - 1`,
byte1 = `0x80 | (eo >> 5)`, byte2 = `(eo & 0x1F) | (len << 5)`. -/
def emitMidClaim (len off : Nat) : List Nat :=
  [0x80 ||| ((off - 1) >>> 5), ((off - 1) &&& 0x1F) ||| (len <<< 5)]

/-- Counterexample to claim C4 as stated: for the mid match `len = 3`,
`off = 300` the encoder's second payload byte is
`(eo & 0x1F) | ((len - 2) << 5) = 43`, not `(eo & 0x1F) | (len << 5) = 107`. -/
theorem c4_counterexample :
    emitMatch 3 300 = [0x89, 43] ∧ emitMidClaim 3 300 = [0x89, 107] ∧
      emitMatch 3 300 ≠ emitMidClaim 3 300 := by decide

/-- Claim C4 (amended): a match with `3 ≤ len ≤ 9` that does not take
the one-byte short form emits exactly the two bytes
`0x80 | (eo >> 5)` and `(eo & 0x1F) | ((len - 2) << 5)`, `eo = off - 1`. -/
theorem c4_mid_match_encoding (len off : Nat) (h3 : 3 ≤ len) (h9 : len ≤ 9)
    (hshort : ¬(len ≤ 5 ∧ off ≤ 256)) :
    emitMatch len off =
      [0x80 ||| ((off - 1) >>> 5), ((off - 1) &&& 0x1F) ||| ((len - 2) <<< 5)] := by
  rw [emitMatch, if_neg hshort, if_pos h9]

theorem c4_mid_match_encoding_witness :
    ((3 : Nat) ≤ 3 ∧ (3 : Nat) ≤ 9 ∧ ¬((3 : Nat) ≤ 5 ∧ (300 : Nat) ≤ 256)) ∧
      emitMatch 3 300 =
        [0x80 ||| ((300 - 1) >>> 5), ((300 - 1) &&& 0x1F) ||| ((3 - 2) <<< 5)] :=
  ⟨by decide, c4_mid_match_encoding 3 300 (by decide) (by decide) (by decide)⟩

/-! ## Claim C9: the XOR stream cipher -/

/-- The common body of `xor_decrypt` (`ExMgData.py`) and `xor_encrypt`
(`PkMgData.py`): `bytes(data[i] ^ key[i % len(key)] for i in range(len(data)))`. -/
def xorWith (data key : List Nat) : List Nat :=
  (List.range data.length).map (fun i => data.getD i 0 ^^^ key.getD (i % key.length) 0)

/-- `ExMgData.xor_decrypt`; `none` models the `ZeroDivisionError`
raised by `i % len(key)` for an empty key. The generator expression is
lazy: over `range(0)` the body `i % len(key)` is never evaluated, so for
empty data the function returns `b''` even with an empty key. -/
def xor_decrypt (data key : List Nat) : Option (List Nat) :=
  if key.length = 0 ∧ data.length ≠ 0 then none else some (xorWith data key)

/-- `PkMgData.xor_encrypt` (the identical computation; the list
comprehension over `range(0)` likewise never evaluates `i % len(key)`,
so empty data yields `b''` even with an empty key). -/
def xor_encrypt (data key : List Nat) : Option (List Nat) :=
  if key.length = 0 ∧ data.length ≠ 0 then none else some (xorWith data key)

lemma xorWith_length (data key : List Nat) : (xorWith data key).length = data.length := by
  simp [xorWith]

lemma xorWith_getD (data key : List Nat) (i : Nat) (hi : i < data.length) :
    (xorWith data key).getD i 0 = data.getD i 0 ^^^ key.getD (i % key.length) 0 := by
  rw [List.getD_eq_getElem _ _ (by simpa [xorWith_length] using hi)]
  simp [xorWith]

lemma xorWith_involution (b k : List Nat) : xorWith (xorWith b k) k = b := by
  apply List.ext_getElem
  · simp [xorWith_length]
  · intro i h1 h2
    rw [show (xorWith (xorWith b k) k)[i] = (xorWith (xorWith b k) k).getD i 0 from
      (List.getD_eq_getElem _ _ h1).symm]
    rw [xorWith_getD _ _ _ (by simpa [xorWith_length] using h2)]
    rw [xorWith_getD _ _ _ h2]
    rw [Nat.xor_cancel_right]
    exact List.getD_eq_getElem _ _ h2

/-- Claim C9: XOR involution: `xor(xor(b,k),k) = b`, the result has the
length of `b`, and the operation fails exactly when the key is empty but
the data is not (the lazy generator never touches `i % len(key)` when
the data is empty, so the only failures have an empty key). -/
theorem c9_xor_involution (b k : List Nat) :
    (xor_decrypt b k = none ↔ k = [] ∧ b ≠ []) ∧
      xor_encrypt b k = xor_decrypt b k ∧
      ∀ c, xor_decrypt b k = some c →
        c.length = b.length ∧ xor_decrypt c k = some b := by
  refine ⟨?_, rfl, ?_⟩
  · constructor
    · intro hn
      by_cases hcond : k = [] ∧ ¬b = []
      · exact ⟨hcond.1, hcond.2⟩
      · simp [xor_decrypt, hcond] at hn
    · rintro ⟨rfl, hb⟩
      simp [xor_decrypt, hb]
  · intro c hc
    by_cases hcond : k = [] ∧ ¬b = []
    · simp [xor_decrypt, hcond] at hc
    · have hsome : xor_decrypt b k = some (xorWith b k) := by
        simp [xor_decrypt, hcond]
      rw [hsome] at hc
      obtain rfl : xorWith b k = c := Option.some.inj hc
      refine ⟨xorWith_length b k, ?_⟩
      have hcond2 : ¬(k = [] ∧ ¬xorWith b k = []) := fun hp =>
        hcond ⟨hp.1, fun hbnil => hp.2 (by subst hbnil; rfl)⟩
      simp [xor_decrypt, hcond2, xorWith_involution]

theorem c9_xor_involution_witness :
    xor_decrypt [1, 2, 250] [7] = some [6, 5, 253] ∧
      ([6, 5, 253] : List Nat).length = ([1, 2, 250] : List Nat).length ∧
      xor_decrypt [6, 5, 253] [7] = some [1, 2, 250] :=
  ⟨by decide, (c9_xor_involution [1, 2, 250] [7]).2.2 [6, 5, 253] (by decide)⟩

/-! ## Claim C10: the MgGra packer stores payloads verbatim -/

/-- The payload selection of `PkmgGra.pack_files` (lines 49-54): both
branches of the first-byte test keep the file data unchanged (the
`zlib.compress` call is commented out); `none` models the `IndexError`
of `file_data[0]` on an empty file. -/
def pkmggra_payload : List Nat → Option (List Nat)
  | [] => none
  | b :: rest => if b = 0x78 then some (b :: rest) else some (b :: rest)

/-- The archive's data section (`data_buffer`): the per-file payloads
concatenated in input order. -/
def pkmggra_data_section : List (List Nat) → Option (List Nat)
  | [] => some []
  | f :: fs =>
    match pkmggra_payload f, pkmggra_data_section fs with
    | some p, some ps => some (p ++ ps)
    | _, _ => none

lemma pkmggra_data_section_join : ∀ (files : List (List Nat)),
    (∀ f ∈ files, f ≠ []) → pkmggra_data_section files = some files.flatten
  | [], _ => by simp [pkmggra_data_section]
  | f :: fs, hne => by
    obtain ⟨b, rest, rfl⟩ : ∃ b r, f = b :: r := by
      cases f with
      | nil => exact absurd rfl (hne [] (by simp))
      | cons x xs => exact ⟨x, xs, rfl⟩
    have ih := pkmggra_data_section_join fs (fun g hg => hne g (by simp [hg]))
    simp only [pkmggra_data_section, pkmggra_payload, ih]
    by_cases hb : b = 0x78 <;> simp [hb]

/-- Claim C10: the MgGra packer stores every (non-empty) payload
verbatim: both branches of the first-byte test yield the unmodified
data, and the data section is the concatenation of the input files. -/
theorem c10_verbatim_payloads (files : List (List Nat))
    (hne : ∀ f ∈ files, f ≠ []) :
    (∀ b rest, pkmggra_payload (b :: rest) = some (b :: rest)) ∧
      pkmggra_data_section files = some files.flatten := by
  refine ⟨fun b rest => ?_, pkmggra_data_section_join files hne⟩
  by_cases hb : b = 0x78 <;> simp [pkmggra_payload, hb]

theorem c10_verbatim_payloads_witness :
    (∀ f ∈ ([[0x78, 1], [5, 6]] : List (List Nat)), f ≠ []) ∧
      pkmggra_data_section [[0x78, 1], [5, 6]] = some [0x78, 1, 5, 6] :=
  ⟨by decide, by
    have h := (c10_verbatim_payloads [[0x78, 1], [5, 6]] (by decide)).2
    simpa using h⟩

/-! ## Claim C5: the decoded-length invariant (violated by raw runs) -/

/-- Claim C5 is a code bug: a raw run near the end of the output buffer
resizes it via Python's slice assignment.  Header: `1×1` pixels at 3
bytes per pixel (3-byte buffer), payload `80 03 01..09`
(`packed_size = 11`): the raw run executes `output[0:9] = f.read(9)`
and the decoded buffer has NINE bytes, not `width*height*bpp = 3`. -/
theorem c5_rawrun_overrun :
    prsDecodeFile (0x59 :: 0x42 :: 0x00 :: 3 :: 0x0B :: 0 :: 0 :: 0 ::
        0 :: 0 :: 0 :: 0 :: 1 :: 0 :: 1 :: 0 ::
        [0x80, 0x03, 1, 2, 3, 4, 5, 6, 7, 8, 9]) =
      some (.ok [1, 2, 3, 4, 5, 6, 7, 8, 9]) ∧
      ([1, 2, 3, 4, 5, 6, 7, 8, 9] : List Nat).length ≠ 1 * 1 * 3 := by decide

/-! ## Claim C3: decoder branch structure

In the source, the clear control bit copies a SINGLE literal byte; the
mode/raw-run/short-back-reference interpretation of the token byte
lives in the SET-bit branch (for token bytes with the 0x80 bit clear). -/

lemma and_128_eq_zero : ∀ b, b < 128 → b &&& 128 = 0 := by decide

/-- Claim C3 (amended): characterization of one decode-loop iteration
at a mid-group token (mask not yet exhausted, so no control-byte
fetch).  A clear control bit copies exactly one literal byte.  A set
control bit whose token byte `b` has bit 7 clear is interpreted as
`mode = b & 3`, `length = b >> 2`: `mode = 3` is a raw run copying
`length + 9` payload bytes, any other mode is a short back-reference
with back-distance `(b >> 2) + 1` and copy length `(b & 3) + 2`. -/
theorem c3_branch_structure (payload : List Nat) (b remaining : Nat) (out : List Nat)
    (dst bit ctl fuel : Nat) (hbit : 2 ≤ bit) (hrem : remaining ≠ 0)
    (hdst : dst < out.length) :
    (ctl &&& (bit >>> 1) = 0 →
      prsUnpackLoop (b :: payload) remaining out dst bit ctl (fuel + 1) =
        prsUnpackLoop payload (remaining - 1) (out.set dst b) (dst + 1) (bit >>> 1) ctl
          fuel) ∧
    (ctl &&& (bit >>> 1) ≠ 0 → b < 0x80 → b &&& 3 = 3 →
      prsUnpackLoop (b :: payload) remaining out dst bit ctl (fuel + 1) =
        prsUnpackLoop (payload.drop ((b >>> 2) + 9))
          (remaining - 1 - (payload.take ((b >>> 2) + 9)).length)
          (out.take dst ++ payload.take ((b >>> 2) + 9) ++
            out.drop (dst + ((b >>> 2) + 9)))
          (dst + (payload.take ((b >>> 2) + 9)).length) (bit >>> 1) ctl fuel) ∧
    (ctl &&& (bit >>> 1) ≠ 0 → b < 0x80 → b &&& 3 ≠ 3 →
      prsUnpackLoop (b :: payload) remaining out dst bit ctl (fuel + 1) =
        if dst < (b >>> 2) + 1 then .error .invalidOffset
        else
          prsUnpackLoop payload (remaining - 1)
            (copyBack out dst ((b >>> 2) + 1) (min ((b &&& 3) + 2) (out.length - dst)))
            (dst + min ((b &&& 3) + 2) (out.length - dst)) (bit >>> 1) ctl fuel) := by
  have hb1 : bit >>> 1 ≠ 0 := by
    rw [Nat.shiftRight_eq_div_pow, Nat.pow_one]
    omega
  have hor : ¬(remaining = 0 ∨ out.length ≤ dst) := by push_neg; exact ⟨hrem, by omega⟩
  refine ⟨fun hc => prsUnpack_literal_step b payload remaining out dst bit ctl fuel
      hrem hdst hb1 hc, fun hc hb hm => ?_, fun hc hb hm => ?_⟩
  · rw [prsUnpackLoop, if_neg hor, fetchBit_stay _ _ _ _ hb1]
    have h80 : b &&& 0x80 = 0 := and_128_eq_zero b hb
    simp [hrem, hc, h80, hm]
  · rw [prsUnpackLoop, if_neg hor, fetchBit_stay _ _ _ _ hb1]
    have h80 : b &&& 0x80 = 0 := and_128_eq_zero b hb
    simp [hrem, hc, h80, hm]

theorem c3_branch_structure_witness :
    ((2 : Nat) ≤ 0x80 ∧ (3 : Nat) ≠ 0 ∧ (0 : Nat) < 4 ∧
      (0x40 : Nat) &&& (0x80 >>> 1) ≠ 0 ∧ (0x0F : Nat) < 0x80 ∧
      (0x0F : Nat) &&& 3 = 3) ∧
      prsUnpackLoop [0x0F, 1, 2] 3 [0, 0, 0, 0] 0 0x80 0x40 4 =
        prsUnpackLoop (([1, 2] : List Nat).drop ((0x0F >>> 2) + 9))
          (3 - 1 - (([1, 2] : List Nat).take ((0x0F >>> 2) + 9)).length)
          (([0, 0, 0, 0] : List Nat).take 0 ++ ([1, 2] : List Nat).take ((0x0F >>> 2) + 9) ++
            ([0, 0, 0, 0] : List Nat).drop (0 + ((0x0F >>> 2) + 9)))
          (0 + (([1, 2] : List Nat).take ((0x0F >>> 2) + 9)).length) (0x80 >>> 1) 0x40 3 :=
  ⟨by decide,
    (c3_branch_structure [1, 2] 0x0F 3 [0, 0, 0, 0] 0 0x80 0x40 3
      (by decide) (by decide) (by decide)).2.1 (by decide) (by decide) (by decide)⟩

/-- Modelled from the claim's words (C3): a decoder whose CLEAR-bit
branch reads one byte `b1` and interprets `mode = b1 & 3`,
`length = b1 >> 2` (mode 3 → raw run of `length + 9` literal payload
bytes, otherwise a short back-reference with distance `(b1 >> 2) + 1`
and length `(b1 & 3) + 2`), while the set-bit branch keeps the
source's match logic.  Compared against `prsUnpackLoop` (the source),
which copies a single literal byte in the clear-bit branch. -/
def prsUnpackClaimC3Loop (payload : List Nat) (remaining : Nat) (output : List Nat)
    (dst bit ctl : Nat) : Nat → Except PrsError (List Nat)
  | 0 => .error .outOfFuel
  | fuel + 1 =>
    if remaining = 0 ∨ output.length ≤ dst then .ok output
    else
      match fetchBit payload remaining bit ctl with
      | .error e => .error e
      | .ok (p1, r1, bit1, ctl1) =>
        if r1 = 0 then .ok output
        else if ctl1 &&& bit1 = 0 then
          -- claim: literal-or-raw-run branch with mode = b1 & 3
          match p1 with
          | [] => .error .truncated
          | b :: p2 =>
            let r2 := r1 - 1
            if b &&& 3 = 3 then
              let len := (b >>> 2) + 9
              let rd := p2.take len
              prsUnpackClaimC3Loop (p2.drop len) (r2 - rd.length)
                (output.take dst ++ rd ++ output.drop (dst + len)) (dst + rd.length)
                bit1 ctl1 fuel
            else
              let shift2 := (b >>> 2) + 1
              if dst < shift2 then .error .invalidOffset
              else
                let len := min ((b &&& 3) + 2) (output.length - dst)
                prsUnpackClaimC3Loop p2 r2 (copyBack output dst shift2 len)
                  (dst + len) bit1 ctl1 fuel
        else
          match p1 with
          | [] => .error .truncated
          | b :: p2 =>
            let r2 := r1 - 1
            if b &&& 0x80 ≠ 0 then
              if r2 = 0 then .ok output
              else
                match p2 with
                | [] => .error .truncated
                | s :: p3 =>
                  let r3 := r2 - 1
                  let shift1 := s ||| ((b &&& 0x3f) <<< 8)
                  if b &&& 0x40 ≠ 0 then
                    if r3 = 0 then .ok output
                    else
                      match p3 with
                      | [] => .error .truncated
                      | o :: p4 =>
                        let shift2 := shift1 + 1
                        if dst < shift2 then .error .invalidOffset
                        else
                          let len := min (length_table.getD o 0) (output.length - dst)
                          prsUnpackClaimC3Loop p4 (r3 - 1) (copyBack output dst shift2 len)
                            (dst + len) bit1 ctl1 fuel
                  else
                    let shift2 := (shift1 >>> 4) + 1
                    if dst < shift2 then .error .invalidOffset
                    else
                      let len := min ((shift1 &&& 0xf) + 3) (output.length - dst)
                      prsUnpackClaimC3Loop p3 r3 (copyBack output dst shift2 len)
                        (dst + len) bit1 ctl1 fuel
            else
              if b &&& 3 = 3 then
                let len := (b >>> 2) + 9
                let rd := p2.take len
                prsUnpackClaimC3Loop (p2.drop len) (r2 - rd.length)
                  (output.take dst ++ rd ++ output.drop (dst + len)) (dst + rd.length)
                  bit1 ctl1 fuel
              else
                let shift2 := (b >>> 2) + 1
                if dst < shift2 then .error .invalidOffset
                else
                  let len := min ((b &&& 3) + 2) (output.length - dst)
                  prsUnpackClaimC3Loop p2 r2 (copyBack output dst shift2 len)
                    (dst + len) bit1 ctl1 fuel

/-- Counterexample to claim C3 as stated: on payload `00 0F` (control
byte 0, token byte 0x0F) with a 2-byte output buffer, the source's
decoder copies the SINGLE literal byte 0x0F (clear bit ⇒ literal),
whereas the claimed branch structure (clear bit ⇒ mode logic) would
start a raw run of 3+9 bytes; the two decoders disagree. -/
theorem c3_counterexample :
    prsUnpackLoop [0x00, 0x0F] 2 (List.replicate 2 0) 0 0 0 3 = .ok [0x0F, 0] ∧
      prsUnpackClaimC3Loop [0x00, 0x0F] 2 (List.replicate 2 0) 0 0 0 3 = .ok [] ∧
      prsUnpackLoop [0x00, 0x0F] 2 (List.replicate 2 0) 0 0 0 3 ≠
        prsUnpackClaimC3Loop [0x00, 0x0F] 2 (List.replicate 2 0) 0 0 0 3 := by decide

/-! ## Claim C2: control-stream bit order

The decoder is restated with an explicit token index `j` in the current
group: `maskOf j` is the control-byte mask the `j`-th token consults.
The source decoder is equivalent to the index form with
`maskOf j = 0x80 >>> j` (MSB-first), and the encoder to the index form
with `maskOf j = 1 <<< j` (LSB-first).  The claim's LSB-first decoder
is the index form with `maskOf j = 1 <<< j`, refuted by counterexample. -/

/-- `fetchBit` in index form: when eight tokens have been consumed,
read the next control byte and restart the group at token 0. -/
def fetchIdx (payload : List Nat) (remaining j ctl : Nat) :
    Except PrsError (List Nat × Nat × Nat × Nat) :=
  if 8 ≤ j then
    match payload with
    | [] => .error .truncated
    | c :: tail => .ok (tail, remaining - 1, 0, c)
  else
    .ok (payload, remaining, j, ctl)

/-- The decode loop with explicit token index `j` (initially 8, forcing
a control-byte fetch) consulting `ctl &&& maskOf j` for token `j`. -/
def prsUnpackIdxWith (maskOf : Nat → Nat) (payload : List Nat) (remaining : Nat)
    (output : List Nat) (dst j ctl : Nat) : Nat → Except PrsError (List Nat)
  | 0 => .error .outOfFuel
  | fuel + 1 =>
    if remaining = 0 ∨ output.length ≤ dst then .ok output
    else
      match fetchIdx payload remaining j ctl with
      | .error e => .error e
      | .ok (p1, r1, j1, ctl1) =>
        if r1 = 0 then .ok output
        else if ctl1 &&& maskOf j1 = 0 then
          match p1 with
          | [] => .error .truncated
          | b :: p2 =>
            prsUnpackIdxWith maskOf p2 (r1 - 1) (output.set dst b) (dst + 1) (j1 + 1)
              ctl1 fuel
        else
          match p1 with
          | [] => .error .truncated
          | b :: p2 =>
            let r2 := r1 - 1
            if b &&& 0x80 ≠ 0 then
              if r2 = 0 then .ok output
              else
                match p2 with
                | [] => .error .truncated
                | s :: p3 =>
                  let r3 := r2 - 1
                  let shift1 := s ||| ((b &&& 0x3f) <<< 8)
                  if b &&& 0x40 ≠ 0 then
                    if r3 = 0 then .ok output
                    else
                      match p3 with
                      | [] => .error .truncated
                      | o :: p4 =>
                        let shift2 := shift1 + 1
                        if dst < shift2 then .error .invalidOffset
                        else
                          let len := min (length_table.getD o 0) (output.length - dst)
                          prsUnpackIdxWith maskOf p4 (r3 - 1)
                            (copyBack output dst shift2 len) (dst + len) (j1 + 1)
                            ctl1 fuel
                  else
                    let shift2 := (shift1 >>> 4) + 1
                    if dst < shift2 then .error .invalidOffset
                    else
                      let len := min ((shift1 &&& 0xf) + 3) (output.length - dst)
                      prsUnpackIdxWith maskOf p3 r3 (copyBack output dst shift2 len)
                        (dst + len) (j1 + 1) ctl1 fuel
            else
              if b &&& 3 = 3 then
                let len := (b >>> 2) + 9
                let rd := p2.take len
                prsUnpackIdxWith maskOf (p2.drop len) (r2 - rd.length)
                  (output.take dst ++ rd ++ output.drop (dst + len)) (dst + rd.length)
                  (j1 + 1) ctl1 fuel
              else
                let shift2 := (b >>> 2) + 1
                if dst < shift2 then .error .invalidOffset
                else
                  let len := min ((b &&& 3) + 2) (output.length - dst)
                  prsUnpackIdxWith maskOf p2 r2 (copyBack output dst shift2 len)
                    (dst + len) (j1 + 1) ctl1 fuel

lemma fetchIdx_load (c : Nat) (payload : List Nat) (remaining j ctl : Nat)
    (hj : 8 ≤ j) :
    fetchIdx (c :: payload) remaining j ctl = .ok (payload, remaining - 1, 0, c) := by
  simp [fetchIdx, hj]

lemma fetchIdx_stay (payload : List Nat) (remaining j ctl : Nat) (hj : j < 8) :
    fetchIdx payload remaining j ctl = .ok (payload, remaining, j, ctl) := by
  have h : ¬8 ≤ j := by omega
  simp [fetchIdx, h]

lemma fetchBit_load_nil (remaining bit ctl : Nat) (hbit : bit >>> 1 = 0) :
    fetchBit [] remaining bit ctl = .error .truncated := by
  simp [fetchBit, hbit]

lemma fetchIdx_load_nil (remaining j ctl : Nat) (hj : 8 ≤ j) :
    fetchIdx [] remaining j ctl = .error .truncated := by
  simp [fetchIdx, hj]

lemma msb_mask_eq : ∀ j, j < 8 → (0x80 : Nat) >>> j = 1 <<< (7 - j) := by decide

/-- The source decoder is the index decoder with the MSB-first mask
`0x80 >>> j`; the relation between the source's `bit` state and the
token index `j` is `bit = 1 <<< (8 - j)` (with `bit ≤ 1` forcing a
control fetch, like `j = 8`). -/
lemma prsUnpackLoop_eq_idx : ∀ (fuel : Nat) (payload : List Nat) (remaining : Nat)
    (out : List Nat) (dst bit j ctl : Nat),
    ((bit ≤ 1 ∧ j = 8) ∨ (1 ≤ j ∧ j ≤ 8 ∧ bit = 1 <<< (8 - j))) →
    prsUnpackLoop payload remaining out dst bit ctl fuel =
      prsUnpackIdxWith (fun i => 0x80 >>> i) payload remaining out dst j ctl fuel := by
  intro fuel
  induction fuel with
  | zero => intro payload remaining out dst bit j ctl _; rfl
  | succ f ih =>
    intro payload remaining out dst bit j ctl hinv
    have hinv' : (j = 8 ∧ bit ≤ 1) ∨ (1 ≤ j ∧ j < 8 ∧ bit = 1 <<< (8 - j)) := by
      rcases hinv with ⟨h1, h2⟩ | ⟨h1, h2, h3⟩
      · exact Or.inl ⟨h2, h1⟩
      · by_cases hj : j = 8
        · subst hj
          exact Or.inl ⟨rfl, by rw [h3]; decide⟩
        · exact Or.inr ⟨h1, by omega, h3⟩
    have ihA : ∀ p r o d c, prsUnpackLoop p r o d 0x80 c f =
        prsUnpackIdxWith (fun i => 0x80 >>> i) p r o d (0 + 1) c f := fun p r o d c =>
      ih p r o d 0x80 (0 + 1) c (Or.inr ⟨by omega, by omega, by decide⟩)
    rw [prsUnpackLoop, prsUnpackIdxWith]
    by_cases hexit : remaining = 0 ∨ out.length ≤ dst
    · rw [if_pos hexit, if_pos hexit]
    · rw [if_neg hexit, if_neg hexit]
      rcases hinv' with ⟨rfl, hbit⟩ | ⟨hj1, hj8, rfl⟩
      · -- control-byte fetch on both sides
        cases payload with
        | nil =>
          rw [fetchBit_load_nil _ _ _ (shiftRight_one_of_le_one hbit),
            fetchIdx_load_nil _ _ _ (by omega)]
        | cons c tail =>
          rw [fetchBit_load _ _ _ _ _ (shiftRight_one_of_le_one hbit),
            fetchIdx_load _ _ _ _ _ (by omega)]
          simp only [ihA, Nat.shiftRight_zero]
      · -- mid-group token j
        have hmask : (0x80 : Nat) >>> j = 1 <<< (7 - j) := msb_mask_eq j hj8
        have hbit1 : (1 <<< (8 - j)) >>> 1 = 1 <<< (7 - j) := by
          rw [show 8 - j = (7 - j) + 1 by omega, one_shiftLeft_succ_shiftRight]
        have hb1ne : (1 <<< (8 - j)) >>> 1 ≠ 0 := by
          rw [hbit1]; exact one_shiftLeft_ne_zero _
        rw [fetchBit_stay _ _ _ _ hb1ne, fetchIdx_stay _ _ _ _ hj8]
        have ihB : ∀ p r o d c, prsUnpackLoop p r o d (1 <<< (7 - j)) c f =
            prsUnpackIdxWith (fun i => 0x80 >>> i) p r o d (j + 1) c f :=
          fun p r o d c => ih p r o d _ (j + 1) c
            (Or.inr ⟨by omega, by omega, by congr 1; omega⟩)
        simp only [hmask, hbit1, ihB]

/-- The source encoder loop with explicit token index `j` in the
current group; the control bit of token `j` is `maskOf j`, and the
group is flushed after token 7. -/
def packLoopIdxWith (maskOf : Nat → Nat) (input : List Nat) (idx control j : Nat)
    (cbuf : List Nat) (table : HashTable) : Nat → List Nat
  | 0 => []
  | fuel + 1 =>
    if input.length ≤ idx then
      if j ≠ 0 ∨ cbuf ≠ [] then control :: cbuf else []
    else
      let fm := find_longest_match input table idx
      let control' := if fm.1 < 3 then control else control ||| maskOf j
      let cbuf' := if fm.1 < 3 then cbuf ++ [input.getD idx 0] else cbuf ++ emitMatch fm.1 fm.2
      let idx' := if fm.1 < 3 then idx + 1 else idx + fm.1
      let table' := addRange table input (idx' - fm.1) fm.1
      if j + 1 = 8 then
        control' :: cbuf' ++ packLoopIdxWith maskOf input idx' 0 0 [] table' fuel
      else
        packLoopIdxWith maskOf input idx' control' (j + 1) cbuf' table' fuel

lemma one_shiftLeft_lt8_iff : ∀ j, j < 8 →
    ((1 <<< j = 1 ↔ j = 0) ∧ ((1 <<< j) <<< 1 = 0x100 ↔ j + 1 = 8) ∧
      (1 <<< j) <<< 1 = 1 <<< (j + 1)) := by decide

/-- The source encoder is the index encoder with the LSB-first mask
`1 <<< j`: the source's `mask` state is `1 <<< j` for token index `j`. -/
lemma packLoop_eq_idx : ∀ (fuel : Nat) (input : List Nat) (idx control j : Nat)
    (cbuf : List Nat) (table : HashTable), j < 8 →
    packLoop input idx control (1 <<< j) cbuf table fuel =
      packLoopIdxWith (fun i => 1 <<< i) input idx control j cbuf table fuel := by
  intro fuel
  induction fuel with
  | zero => intro input idx control j cbuf table _; rfl
  | succ f ih =>
    intro input idx control j cbuf table hj
    obtain ⟨hone, hflush, hsucc⟩ := one_shiftLeft_lt8_iff j hj
    rw [packLoop, packLoopIdxWith]
    by_cases hidx : input.length ≤ idx
    · rw [if_pos hidx, if_pos hidx]
      by_cases hj0 : j = 0
      · subst hj0
        by_cases hc : cbuf = [] <;> simp [hc, hone]
      · have : 1 <<< j ≠ 1 := fun hx => hj0 (hone.mp hx)
        simp [this, hj0]
    · rw [if_neg hidx, if_neg hidx]
      by_cases hfl : j + 1 = 8
      · have ih0 : ∀ a b, packLoop input a 0 1 [] b f =
            packLoopIdxWith (fun i => 1 <<< i) input a 0 0 [] b f :=
          fun a b => by
            have h2 := ih input a 0 0 [] b (by omega)
            rwa [show (1 : Nat) <<< 0 = 1 from rfl] at h2
        have hc1 : ((1 <<< j) <<< 1 = 0x100) = True := eq_true (hflush.mpr hfl)
        have hc2 : (j + 1 = 8) = True := eq_true hfl
        simp only [hc1, hc2, if_true, ih0]
      · have ihS : ∀ a b c d, packLoop input a b (1 <<< (j + 1)) c d f =
            packLoopIdxWith (fun i => 1 <<< i) input a b (j + 1) c d f :=
          fun a b c d => ih input a b (j + 1) c d (by omega)
        have hc1 : (1 <<< (j + 1) = 0x100) = False :=
          eq_false (fun hx => hfl (hflush.mp (by rw [hsucc]; exact hx)))
        have hc2 : (j + 1 = 8) = False := eq_false hfl
        simp only [hsucc, hc1, hc2, if_false, ihS]

/-- Claim C2 (amended): the ENCODER consults control bits LSB-first
(token `j` of a group sets bit `1 <<< j` for a match), but the DECODER
consults them MSB-first (token `j` consults bit `0x80 >>> j`); in the
decoder a clear bit selects the single-literal branch and a set bit the
match branch, and in the encoder a literal leaves the bit clear and a
match sets it. -/
theorem c2_bit_order :
    (∀ (payload : List Nat) (remaining : Nat) (out : List Nat) (dst ctl fuel : Nat),
      prsUnpackLoop payload remaining out dst 0 ctl fuel =
        prsUnpackIdxWith (fun j => 0x80 >>> j) payload remaining out dst 8 ctl fuel) ∧
    (∀ (input : List Nat) (idx control : Nat) (cbuf : List Nat) (table : HashTable)
      (fuel : Nat),
      packLoop input idx control 1 cbuf table fuel =
        packLoopIdxWith (fun j => 1 <<< j) input idx control 0 cbuf table fuel) :=
  ⟨fun payload remaining out dst ctl fuel =>
    prsUnpackLoop_eq_idx fuel payload remaining out dst 0 8 ctl
      (Or.inl ⟨by omega, rfl⟩),
   fun input idx control cbuf table fuel => by
    have h := packLoop_eq_idx fuel input idx control 0 cbuf table (by omega)
    rwa [show (1 : Nat) <<< 0 = 1 from rfl] at h⟩

/-- Counterexample to claim C2 as stated: the claim's LSB-first decoder
(`maskOf j = 1 <<< j`) disagrees with the source decoder.  On payload
`01 05` (control byte 0x01) with a 1-byte output, the source decoder
consults bit 0x80 of the control byte — clear, so it copies the literal
0x05 — while the claimed decoder consults bit `1 << 0` — set, so it
takes the match branch and fails with the invalid-offset error. -/
theorem c2_counterexample :
    prsUnpackLoop [0x01, 0x05] 2 (List.replicate 1 0) 0 0 0 3 = .ok [0x05] ∧
      prsUnpackIdxWith (fun j => 1 <<< j) [0x01, 0x05] 2 (List.replicate 1 0) 0 8 0 3 =
        .error .invalidOffset ∧
      prsUnpackLoop [0x01, 0x05] 2 (List.replicate 1 0) 0 0 0 3 ≠
        prsUnpackIdxWith (fun j => 1 <<< j) [0x01, 0x05] 2 (List.replicate 1 0) 0 8 0 3 := by
  decide

/-! ## Claim C6: the invalid-offset error condition -/

/-- The back-reference events of a decode run: the `(D, dst)` pair of
every back-reference token the decode loop decodes, where
`D = shift + 1` is the effective back-distance and `dst` the output
cursor at that token.  Decoding cannot continue past a token with
`D > dst` (the invalid-offset raise), so such an event ends the list.
Mirrors `prsUnpackLoop` branch for branch. -/
def prsBackrefs (payload : List Nat) (remaining : Nat) (output : List Nat)
    (dst bit ctl : Nat) : Nat → List (Nat × Nat)
  | 0 => []
  | fuel + 1 =>
    if remaining = 0 ∨ output.length ≤ dst then []
    else
      match fetchBit payload remaining bit ctl with
      | .error _ => []
      | .ok (p1, r1, bit1, ctl1) =>
        if r1 = 0 then []
        else if ctl1 &&& bit1 = 0 then
          match p1 with
          | [] => []
          | b :: p2 => prsBackrefs p2 (r1 - 1) (output.set dst b) (dst + 1) bit1 ctl1 fuel
        else
          match p1 with
          | [] => []
          | b :: p2 =>
            let r2 := r1 - 1
            if b &&& 0x80 ≠ 0 then
              if r2 = 0 then []
              else
                match p2 with
                | [] => []
                | s :: p3 =>
                  let r3 := r2 - 1
                  let shift1 := s ||| ((b &&& 0x3f) <<< 8)
                  if b &&& 0x40 ≠ 0 then
                    if r3 = 0 then []
                    else
                      match p3 with
                      | [] => []
                      | o :: p4 =>
                        let shift2 := shift1 + 1
                        if dst < shift2 then [(shift2, dst)]
                        else
                          let len := min (length_table.getD o 0) (output.length - dst)
                          (shift2, dst) ::
                            prsBackrefs p4 (r3 - 1) (copyBack output dst shift2 len)
                              (dst + len) bit1 ctl1 fuel
                  else
                    let shift2 := (shift1 >>> 4) + 1
                    if dst < shift2 then [(shift2, dst)]
                    else
                      let len := min ((shift1 &&& 0xf) + 3) (output.length - dst)
                      (shift2, dst) ::
                        prsBackrefs p3 r3 (copyBack output dst shift2 len)
                          (dst + len) bit1 ctl1 fuel
            else
              if b &&& 3 = 3 then
                let len := (b >>> 2) + 9
                let rd := p2.take len
                prsBackrefs (p2.drop len) (r2 - rd.length)
                  (output.take dst ++ rd ++ output.drop (dst + len)) (dst + rd.length)
                  bit1 ctl1 fuel
              else
                let shift2 := (b >>> 2) + 1
                if dst < shift2 then [(shift2, dst)]
                else
                  let len := min ((b &&& 3) + 2) (output.length - dst)
                  (shift2, dst) ::
                    prsBackrefs p2 r2 (copyBack output dst shift2 len)
                      (dst + len) bit1 ctl1 fuel

/-- When the budget does not exceed the available payload, the decode
loop either fails with the invalid-offset error — and then its event
list ends in an excessive back-distance — or returns a buffer — and
then every decoded back-reference respects the cursor. -/
lemma prsUnpack_offset_dichotomy : ∀ (fuel : Nat) (payload : List Nat) (remaining : Nat)
    (out : List Nat) (dst bit ctl : Nat),
    remaining ≤ payload.length → remaining < fuel →
    (prsUnpackLoop payload remaining out dst bit ctl fuel = .error .invalidOffset ∧
      ∃ p ∈ prsBackrefs payload remaining out dst bit ctl fuel, p.2 < p.1) ∨
    ((∃ buf, prsUnpackLoop payload remaining out dst bit ctl fuel = .ok buf) ∧
      ∀ p ∈ prsBackrefs payload remaining out dst bit ctl fuel, p.1 ≤ p.2) := by
  intro fuel
  induction fuel with
  | zero => intro payload remaining out dst bit ctl _ hf; omega
  | succ f ih =>
    intro payload remaining out dst bit ctl hrem hf
    rw [prsUnpackLoop, prsBackrefs]
    by_cases hexit : remaining = 0 ∨ out.length ≤ dst
    · rw [if_pos hexit, if_pos hexit]
      exact Or.inr ⟨⟨out, rfl⟩, by simp⟩
    · rw [if_neg hexit, if_neg hexit]
      have hrem0 : remaining ≠ 0 := fun hx => hexit (Or.inl hx)
      obtain ⟨P, R, B, C, hfetch, hRP, hRrem⟩ :
          ∃ P R B C, fetchBit payload remaining bit ctl = .ok (P, R, B, C) ∧
            R ≤ P.length ∧ R ≤ remaining := by
        by_cases hload : bit >>> 1 = 0
        · cases payload with
          | nil => exact absurd (Nat.le_zero.mp (by simpa using hrem)) hrem0
          | cons c tail =>
            exact ⟨tail, remaining - 1, 0x80, c, fetchBit_load _ _ _ _ _ hload,
              by simp at hrem; omega, by omega⟩
        · exact ⟨payload, remaining, bit >>> 1, ctl, fetchBit_stay _ _ _ _ hload,
            hrem, le_refl _⟩
      rw [hfetch]
      simp only []
      have hRf : R ≤ f := by omega
      by_cases hr1 : R = 0
      · rw [if_pos hr1, if_pos hr1]
        exact Or.inr ⟨⟨out, rfl⟩, by simp⟩
      · rw [if_neg hr1, if_neg hr1]
        by_cases hctl : C &&& B = 0
        · rw [if_pos hctl, if_pos hctl]
          cases P with
          | nil => exact absurd (Nat.le_zero.mp (by simpa using hRP)) hr1
          | cons b p2 =>
            simp only []
            exact ih p2 (R - 1) (out.set dst b) (dst + 1) B C
              (by simp at hRP; omega) (by omega)
        · rw [if_neg hctl, if_neg hctl]
          cases P with
          | nil => exact absurd (Nat.le_zero.mp (by simpa using hRP)) hr1
          | cons b p2 =>
            simp only []
            by_cases hb80 : b &&& 0x80 ≠ 0
            · rw [if_pos hb80, if_pos hb80]
              by_cases hr2 : R - 1 = 0
              · rw [if_pos hr2, if_pos hr2]
                exact Or.inr ⟨⟨out, rfl⟩, by simp⟩
              · rw [if_neg hr2, if_neg hr2]
                cases p2 with
                | nil => exact absurd (show R - 1 = 0 by simp at hRP; omega) hr2
                | cons s p3 =>
                  simp only []
                  by_cases hb40 : b &&& 0x40 ≠ 0
                  · rw [if_pos hb40, if_pos hb40]
                    by_cases hr3 : R - 1 - 1 = 0
                    · rw [if_pos hr3, if_pos hr3]
                      exact Or.inr ⟨⟨out, rfl⟩, by simp⟩
                    · rw [if_neg hr3, if_neg hr3]
                      cases p3 with
                      | nil => exact absurd (show R - 1 - 1 = 0 by simp at hRP; omega) hr3
                      | cons o p4 =>
                        simp only []
                        by_cases hbad : dst < (s ||| ((b &&& 0x3f) <<< 8)) + 1
                        · rw [if_pos hbad, if_pos hbad]
                          exact Or.inl ⟨rfl,
                            ⟨((s ||| ((b &&& 0x3f) <<< 8)) + 1, dst), by simp, hbad⟩⟩
                        · rw [if_neg hbad, if_neg hbad]
                          have hrec := ih p4 (R - 1 - 1 - 1)
                            (copyBack out dst ((s ||| ((b &&& 0x3f) <<< 8)) + 1)
                              (min (length_table.getD o 0) (out.length - dst)))
                            (dst + min (length_table.getD o 0) (out.length - dst)) B C
                            (by simp at hRP; omega) (by omega)
                          rcases hrec with ⟨he, p, hp, hlt⟩ | ⟨⟨buf, hbuf⟩, hall⟩
                          · exact Or.inl ⟨he, ⟨p, List.mem_cons_of_mem _ hp, hlt⟩⟩
                          · refine Or.inr ⟨⟨buf, hbuf⟩, ?_⟩
                            intro q hq
                            rcases List.mem_cons.mp hq with rfl | hq
                            · exact by omega
                            · exact hall q hq
                  · rw [if_neg hb40, if_neg hb40]
                    by_cases hbad : dst < ((s ||| ((b &&& 0x3f) <<< 8)) >>> 4) + 1
                    · rw [if_pos hbad, if_pos hbad]
                      exact Or.inl ⟨rfl,
                        ⟨(((s ||| ((b &&& 0x3f) <<< 8)) >>> 4) + 1, dst), by simp, hbad⟩⟩
                    · rw [if_neg hbad, if_neg hbad]
                      have hrec := ih p3 (R - 1 - 1)
                        (copyBack out dst (((s ||| ((b &&& 0x3f) <<< 8)) >>> 4) + 1)
                          (min (((s ||| ((b &&& 0x3f) <<< 8)) &&& 0xf) + 3)
                            (out.length - dst)))
                        (dst + min (((s ||| ((b &&& 0x3f) <<< 8)) &&& 0xf) + 3)
                          (out.length - dst)) B C
                        (by simp at hRP; omega) (by omega)
                      rcases hrec with ⟨he, p, hp, hlt⟩ | ⟨⟨buf, hbuf⟩, hall⟩
                      · exact Or.inl ⟨he, ⟨p, List.mem_cons_of_mem _ hp, hlt⟩⟩
                      · refine Or.inr ⟨⟨buf, hbuf⟩, ?_⟩
                        intro q hq
                        rcases List.mem_cons.mp hq with rfl | hq
                        · exact by omega
                        · exact hall q hq
            · rw [if_neg hb80, if_neg hb80]
              by_cases hb3 : b &&& 3 = 3
              · rw [if_pos hb3, if_pos hb3]
                exact ih (p2.drop ((b >>> 2) + 9))
                  (R - 1 - (p2.take ((b >>> 2) + 9)).length) _ _ B C
                  (by simp [List.length_take, List.length_drop] at hRP ⊢; omega)
                  (by omega)
              · rw [if_neg hb3, if_neg hb3]
                by_cases hbad : dst < (b >>> 2) + 1
                · rw [if_pos hbad, if_pos hbad]
                  exact Or.inl ⟨rfl, ⟨((b >>> 2) + 1, dst), by simp, hbad⟩⟩
                · rw [if_neg hbad, if_neg hbad]
                  have hrec := ih p2 (R - 1)
                    (copyBack out dst ((b >>> 2) + 1)
                      (min ((b &&& 3) + 2) (out.length - dst)))
                    (dst + min ((b &&& 3) + 2) (out.length - dst)) B C
                    (by simp at hRP; omega) (by omega)
                  rcases hrec with ⟨he, p, hp, hlt⟩ | ⟨⟨buf, hbuf⟩, hall⟩
                  · exact Or.inl ⟨he, ⟨p, List.mem_cons_of_mem _ hp, hlt⟩⟩
                  · refine Or.inr ⟨⟨buf, hbuf⟩, ?_⟩
                    intro q hq
                    rcases List.mem_cons.mp hq with rfl | hq
                    · exact by omega
                    · exact hall q hq

/-- Claim C6: `PrsReader.unpack` fails with the invalid-offset error if
and only if some decoded back-reference token's effective back-distance
`D = shift + 1` exceeds the output cursor `dst` at that token; when
every decoded back-reference satisfies `D ≤ dst`, the decode completes
without raising.  (Hypothesis: the packed-size budget does not exceed
the payload actually present after the header, as holds for any file
read in full.) -/
theorem c6_invalid_offset_iff (file : List Nat) (meta : PrsMetaData)
    (hps : meta.packed_size ≤ (file.drop 16).length) :
    (prsUnpack file meta = .error .invalidOffset ↔
      ∃ p ∈ prsBackrefs (file.drop 16) meta.packed_size
        (List.replicate (meta.width * meta.height * (meta.bpp / 8)) 0) 0 0 0
        (meta.packed_size + 1), p.2 < p.1) ∧
    ((∀ p ∈ prsBackrefs (file.drop 16) meta.packed_size
        (List.replicate (meta.width * meta.height * (meta.bpp / 8)) 0) 0 0 0
        (meta.packed_size + 1), p.1 ≤ p.2) →
      ∃ buf, prsUnpack file meta = .ok buf) := by
  have hd := prsUnpack_offset_dichotomy (meta.packed_size + 1) (file.drop 16)
    meta.packed_size (List.replicate (meta.width * meta.height * (meta.bpp / 8)) 0)
    0 0 0 hps (by omega)
  rcases hd with ⟨he, hbad⟩ | ⟨⟨buf, hbuf⟩, hgood⟩
  · constructor
    · refine ⟨fun _ => hbad, fun _ => ?_⟩
      rw [prsUnpack, he]
    · intro hall
      obtain ⟨p, hp, hlt⟩ := hbad
      exact absurd (hall p hp) (by omega)
  · constructor
    · constructor
      · intro hu
        rw [prsUnpack, hbuf] at hu
        simp at hu
      · intro hex
        obtain ⟨p, hp, hlt⟩ := hex
        exact absurd (hgood p hp) (by omega)
    · intro _
      refine ⟨if meta.flag &&& 0x80 ≠ 0 then deltaDecode buf (meta.bpp / 8) else buf, ?_⟩
      rw [prsUnpack, hbuf]

theorem c6_invalid_offset_iff_witness :
    (3 : Nat) ≤ ((List.replicate 16 0 ++ [0x40, 0x41, 0x00] : List Nat).drop 16).length ∧
      (∀ p ∈ prsBackrefs ((List.replicate 16 0 ++ [0x40, 0x41, 0x00] :
          List Nat).drop 16) 3 (List.replicate (3 * 1 * (24 / 8)) 0) 0 0 0 4,
        p.1 ≤ p.2) ∧
      ∃ buf, prsUnpack (List.replicate 16 0 ++ [0x40, 0x41, 0x00])
        ⟨3, 1, 24, 0, 3⟩ = .ok buf :=
  ⟨by decide, by decide,
    (c6_invalid_offset_iff (List.replicate 16 0 ++ [0x40, 0x41, 0x00])
      ⟨3, 1, 24, 0, 3⟩ (by decide)).2 (by decide)⟩

/-! ## Claim C8: MgData preset fallback (`ExMgData.py`)

The cp932 codec is abstracted as a function
`cp : List Nat → Option (List Nat)` (`none` = `UnicodeDecodeError`);
the claim is independent of the concrete character set. -/

/-- `unpack_uint32`: read a little-endian u32 at `offset`; `.error ()`
models the `struct.error` raised when fewer than 4 bytes remain. -/
def unpack_uint32 (file : List Nat) (off : Nat) : Except Unit Nat :=
  if off + 4 ≤ file.length then
    .ok (file.getD off 0 + 256 * file.getD (off + 1) 0 +
      65536 * file.getD (off + 2) 0 + 16777216 * file.getD (off + 3) 0)
  else .error ()

/-- The NUL-truncated name bytes of an entry record:
`file.read(0x20)` at `base + name_offset`, then `split(b'\x00', 1)[0]`. -/
def mblNameBytes (file : List Nat) (base noff : Nat) : List Nat :=
  ((file.drop (base + noff)).take 0x20).takeWhile (fun b => b != 0)

/-- `read_entry`: decode the name (via the codec `cp`), then read the
offset and size fields; `.ok none` models the `(None, 0, 0)` return on
`UnicodeDecodeError` (taken BEFORE any u32 read, as in the source). -/
def read_entry (cp : List Nat → Option (List Nat)) (file : List Nat)
    (base noff foff soff : Nat) : Except Unit (Option (List Nat × Nat × Nat)) :=
  match cp (mblNameBytes file base noff) with
  | none => .ok none
  | some name =>
    match unpack_uint32 file (base + foff), unpack_uint32 file (base + soff) with
    | .ok o, .ok sz => .ok (some (name, o, sz))
    | _, _ => .error ()

/-- The per-preset attempt loop of `process_mbl`: read entries at
indices `i, i+1, ...` (`n` left), stopping at the first name-decode
failure (`.ok none` — this triggers the fallback to the next preset). -/
def readEntriesFrom (cp : List Nat → Option (List Nat)) (file : List Nat)
    (esize noff foff soff : Nat) :
    Nat → Nat → Except Unit (Option (List (List Nat × Nat × Nat)))
  | _, 0 => .ok (some [])
  | i, n + 1 =>
    match read_entry cp file (4 + i * esize) noff foff soff with
    | .error () => .error ()
    | .ok none => .ok none
    | .ok (some e) =>
      match readEntriesFrom cp file esize noff foff soff (i + 1) n with
      | .error () => .error ()
      | .ok none => .ok none
      | .ok (some es) => .ok (some (e :: es))

/-- One attempt of `process_mbl` over `count` entries with a given
`MgDataParams` preset. -/
def attemptPreset (cp : List Nat → Option (List Nat)) (file : List Nat)
    (count esize noff foff soff : Nat) :
    Except Unit (Option (List (List Nat × Nat × Nat))) :=
  readEntriesFrom cp file esize noff foff soff 0 count

/-- `save_file` for every entry of the winning preset: seek to
`offset`, read `size` bytes, XOR-decrypt with the key. -/
def mblExtract (file key : List Nat) (es : List (List Nat × Nat × Nat)) :
    List (List Nat × List Nat) :=
  es.map (fun e => (e.1, xorWith ((file.drop e.2.1).take e.2.2) key))

/-- `process_mbl` up to its extraction result: read `count = u32(0)`,
try the `entry_size = 0x40` preset then the `0x18` preset; the first
success extracts all entries (the winning `entry_size` is returned with
them); `.ok none` models the "Failed to decode with all parameter
sets" return, which extracts nothing. -/
def process_mbl (cp : List Nat → Option (List Nat)) (key file : List Nat) :
    Except Unit (Option (Nat × List (List Nat × List Nat))) :=
  match unpack_uint32 file 0 with
  | .error () => .error ()
  | .ok count =>
    match attemptPreset cp file count 0x40 0x00 0x38 0x3C with
    | .error () => .error ()
    | .ok (some es) => .ok (some (0x40, mblExtract file key es))
    | .ok none =>
      match attemptPreset cp file count 0x18 0x00 0x10 0x14 with
      | .error () => .error ()
      | .ok (some es) => .ok (some (0x18, mblExtract file key es))
      | .ok none => .ok none

lemma read_entry_none_iff (cp : List Nat → Option (List Nat)) (file : List Nat)
    (base noff foff soff : Nat) :
    read_entry cp file base noff foff soff = .ok none ↔
      cp (mblNameBytes file base noff) = none := by
  rcases hc : cp (mblNameBytes file base noff) with _ | name
  · simp [read_entry, hc]
  · simp only [read_entry, hc]
    rcases unpack_uint32 file (base + foff) with u | o <;>
      rcases unpack_uint32 file (base + soff) with u' | sz <;> simp

/-- An attempt that does not crash fails (returns `.ok none`) iff some
entry's NUL-truncated name bytes fail the codec. -/
lemma readEntriesFrom_none_iff (cp : List Nat → Option (List Nat)) (file : List Nat)
    (esize noff foff soff : Nat) : ∀ (n i : Nat),
    readEntriesFrom cp file esize noff foff soff i n ≠ .error () →
    (readEntriesFrom cp file esize noff foff soff i n = .ok none ↔
      ∃ k, k < n ∧ cp (mblNameBytes file (4 + (i + k) * esize) noff) = none) := by
  intro n
  induction n with
  | zero =>
    intro i _
    simp [readEntriesFrom]
  | succ m ih =>
    intro i hne
    rw [readEntriesFrom] at hne ⊢
    cases hre : read_entry cp file (4 + i * esize) noff foff soff with
    | error u =>
      rw [hre] at hne
      exact absurd rfl hne
    | ok oe =>
      rw [hre] at hne
      cases oe with
      | none =>
        simp only []
        constructor
        · intro _
          exact ⟨0, by omega, by
            have := (read_entry_none_iff cp file (4 + i * esize) noff foff soff).mp hre
            simpa using this⟩
        · intro _
          trivial
      | some e =>
        simp only []
        have hcp_e : cp (mblNameBytes file (4 + i * esize) noff) ≠ none := by
          intro hc
          have := (read_entry_none_iff cp file (4 + i * esize) noff foff soff).mpr hc
          rw [this] at hre
          exact Option.noConfusion (Except.ok.inj hre)
        cases hrec : readEntriesFrom cp file esize noff foff soff (i + 1) m with
        | error u =>
          rw [hrec] at hne
          exact absurd rfl hne
        | ok orec =>
          have ihm := ih (i + 1) (by rw [hrec]; exact fun hx => Except.noConfusion hx)
          rw [hrec] at ihm
          cases orec with
          | none =>
            simp only []
            constructor
            · intro _
              obtain ⟨k, hk, hbadk⟩ := ihm.mp rfl
              exact ⟨k + 1, by omega, by
                have : i + 1 + k = i + (k + 1) := by omega
                rwa [this] at hbadk⟩
            · intro _
              trivial
          | some es =>
            simp only []
            constructor
            · intro hx
              exact absurd (Except.ok.inj hx) (fun hy => Option.noConfusion hy)
            · intro hex
              obtain ⟨k, hk, hbadk⟩ := hex
              cases k with
              | zero =>
                exact absurd (by simpa using hbadk) hcp_e
              | succ k' =>
                have : i + (k' + 1) = i + 1 + k' := by omega
                rw [this] at hbadk
                have := ihm.mpr ⟨k', by omega, hbadk⟩
                exact Option.noConfusion (Except.ok.inj this)

/-- Claim C8: the reader tries the presets in order (`entry_size 0x40`
first, then `0x18`); a (non-crashing) attempt over `count` entries
fails iff some entry's NUL-truncated name bytes fail cp932 decoding;
the first successful preset is used to extract all entries, and when
every preset fails no entries are extracted. -/
theorem c8_preset_fallback (cp : List Nat → Option (List Nat)) (key file : List Nat)
    (count : Nat) (hcount : unpack_uint32 file 0 = .ok count) :
    (∀ esize noff foff soff,
      attemptPreset cp file count esize noff foff soff ≠ .error () →
      (attemptPreset cp file count esize noff foff soff = .ok none ↔
        ∃ i, i < count ∧ cp (mblNameBytes file (4 + i * esize) noff) = none)) ∧
    (∀ es, attemptPreset cp file count 0x40 0x00 0x38 0x3C = .ok (some es) →
      process_mbl cp key file = .ok (some (0x40, mblExtract file key es))) ∧
    (∀ es, attemptPreset cp file count 0x40 0x00 0x38 0x3C = .ok none →
      attemptPreset cp file count 0x18 0x00 0x10 0x14 = .ok (some es) →
      process_mbl cp key file = .ok (some (0x18, mblExtract file key es))) ∧
    (attemptPreset cp file count 0x40 0x00 0x38 0x3C = .ok none →
      attemptPreset cp file count 0x18 0x00 0x10 0x14 = .ok none →
      process_mbl cp key file = .ok none) := by
  refine ⟨?_, ?_, ?_, ?_⟩
  · intro esize noff foff soff hne
    have h := readEntriesFrom_none_iff cp file esize noff foff soff count 0 hne
    simpa [attemptPreset] using h
  · intro es h1
    rw [process_mbl, hcount]
    simp only [h1]
  · intro es h1 h2
    rw [process_mbl, hcount]
    simp only [h1, h2]
  · intro h1 h2
    rw [process_mbl, hcount]
    simp only [h1, h2]

theorem c8_preset_fallback_witness :
    unpack_uint32 [1, 0, 0, 0, 0xFF] 0 = .ok 1 ∧
      attemptPreset (fun l => if 0xFF ∈ l then none else some l) [1, 0, 0, 0, 0xFF]
        1 0x40 0x00 0x38 0x3C = .ok none ∧
      attemptPreset (fun l => if 0xFF ∈ l then none else some l) [1, 0, 0, 0, 0xFF]
        1 0x18 0x00 0x10 0x14 = .ok none ∧
      process_mbl (fun l => if 0xFF ∈ l then none else some l) [7]
        [1, 0, 0, 0, 0xFF] = .ok none :=
  ⟨by decide, by decide, by decide,
    (c8_preset_fallback (fun l => if 0xFF ∈ l then none else some l) [7]
      [1, 0, 0, 0, 0xFF] 1 (by decide)).2.2.2 (by decide) (by decide)⟩

end Marble
